import Mathlib

/-!
Env-file feeder (`feeder/env.go`)

A shallow embedding of the env-file feeder: the line parser `parse`, the
variable loader `read` and `load`, the key normaliser `standardize`, the
environment resolver `get` and the feeder `Feed`, followed by the properties
established about them.

Modelling conventions:

* A Go `string` holding valid UTF-8 text is a `List Char` (its sequence of
  code points).  Every byte-level operation the source performs (`ln[0] == '#'`,
  `strings.Index(ln, "=")`, `ln[:s]`, `ln[s+1:]`) uses an ASCII byte, and an
  ASCII byte of valid UTF-8 text is always a whole code point, so the byte
  positions of the source and the code-point positions of the embedding split
  the text at the same places.
* A Go `error` is its message.  A possibly-nil error is an `Option GoError`.
* A Go `map[string]string` is an association list with pairwise distinct keys;
  assignment `m[k] = v` is `mapSet`.  A possibly-nil map is an `Option`.
* The `bufio.Scanner` wrapped around the reader is represented by what it
  delivers: the lines handed out by the successive `Scan` calls and the value of
  `Err()` once `Scan` has returned `false`.
* `NewScanner` builds that scanner from the bytes of a file: the input is cut
  at newlines as `bufio.ScanLines` does, and a line that does not fit in the
  default buffer of `bufio.MaxScanTokenSize` bytes ends the scan with
  `bufio.ErrTooLong`.
* The file system is the three calls `load` makes: `filepath.Abs`,
  `filepath.Clean` and `os.Open`.
* The order in which `range` visits the entries of a map is a parameter of
  `Feed`; it is only ever assumed to be a permutation of the entries.
* The process environment is the function computed by `os.LookupEnv`.
-/

namespace Feeder

/-- Go `string` restricted to valid UTF-8 text, as its list of code points. -/
abbrev GoString := List Char

/-- Go `error` value, identified with its message. -/
structure GoError where
  message : GoString
deriving DecidableEq, Repr

/-- Go `map[string]string` as an association list with distinct keys. -/
abbrev VariableMap := List (GoString × GoString)

/-- Map assignment `m[k] = v`: overwrite the entry of `k`, or add one. -/
def mapSet : VariableMap → GoString → GoString → VariableMap
  | [], k, v => [(k, v)]
  | (k0, v0) :: rest, k, v =>
    if k0 = k then (k, v) :: rest else (k0, v0) :: mapSet rest k v

/-- Map lookup `m[k]` with presence flag. -/
def mapGet : VariableMap → GoString → Option GoString
  | [], _ => none
  | (k0, v0) :: rest, k => if k0 = k then some v0 else mapGet rest k

/-- The key set of a map, in entry order. -/
def mapKeys (m : VariableMap) : List GoString := m.map Prod.fst

/-- White space as `unicode.IsSpace` defines it: in Latin-1 the characters
`\t`, `\n`, `\v`, `\f`, `\r`, space, U+0085 and U+00A0, and beyond Latin-1 the
characters of the `White_Space` table. -/
def isSpace (r : Char) : Bool :=
  let n := r.toNat
  if n ≤ 255 then
    n = 9 || n = 10 || n = 11 || n = 12 || n = 13 || n = 32 || n = 133 || n = 160
  else
    n = 5760 || (8192 ≤ n && n ≤ 8202) || n = 8232 || n = 8233 || n = 8239 ||
      n = 8287 || n = 12288

/-- Go `strings.TrimLeftFunc(s, unicode.IsSpace)`. -/
def TrimLeft (s : GoString) : GoString := s.dropWhile isSpace

/-- Go `strings.TrimRightFunc(s, unicode.IsSpace)`. -/
def TrimRight (s : GoString) : GoString := s.rdropWhile isSpace

/-- Go `strings.TrimSpace`: leading white space is cut first, then trailing. -/
def TrimSpace (s : GoString) : GoString := TrimRight (TrimLeft s)

/-- Go `strings.Index(s, sep)` for a one-character separator: the position of
its first occurrence, or `-1` when there is none. -/
def Index (s : GoString) (sep : Char) : Int :=
  if sep ∈ s then (s.indexOf sep : Int) else -1

/-- The message prefix used by `parse` for a malformed line. -/
def invalidLine : GoString := "Invalid line: ".toList

/-- Source `parse`: extracts the key/value from the given line. -/
def parse (line : GoString) : GoString × GoString × Option GoError :=
  let ln := TrimSpace line
  if ln.length = 0 then
    ([], [], none)
  else if ln.head? = some '#' then
    ([], [], none)
  else
    let s := Index ln '='
    if s = -1 then
      ([], [], some ⟨invalidLine ++ ln⟩)
    else
      let k := TrimSpace (ln.take s.toNat)
      let v := TrimSpace (ln.drop (s.toNat + 1))
      (k, v, none)

/-- What the `bufio.Scanner` over the reader delivers: the text of each
successful `Scan`, and `Err()` after the last one. -/
structure Scanner where
  lines : List GoString
  err : Option GoError

/-- The `for scanner.Scan()` loop of `read`: either the first parse error, or
the map accumulated over all the lines. -/
def scanLoop : VariableMap → List GoString → Except GoError VariableMap
  | items, [] => .ok items
  | items, line :: rest =>
    match parse line with
    | (_, _, some e) => .error e
    | (key, value, none) =>
      if key ≠ [] then scanLoop (mapSet items key value) rest
      else scanLoop items rest

/-- The map after one turn of the loop of `read` on a line that parses without
error (auxiliary: the loop itself is `scanLoop`). -/
def loopStep (items : VariableMap) (line : GoString) : VariableMap :=
  if (parse line).1 ≠ [] then mapSet items (parse line).1 (parse line).2.1 else items

/-- Source `read`: the loop, then the check of `scanner.Err()`. -/
def read (file : Scanner) : Option VariableMap × Option GoError :=
  match scanLoop [] file.lines with
  | .error e => (none, some e)
  | .ok items =>
    match file.err with
    | some e => (none, some e)
    | none => (some items, none)

/-- Go `unicode.ToLower`: the ASCII range is handled inline, every other rune
goes through the case tables of the `unicode` package, which are the
parameter `tbl`. -/
def unicodeToLower (tbl : Char → Char) (r : Char) : Char :=
  if r.toNat ≤ 127 then
    if 65 ≤ r.toNat ∧ r.toNat ≤ 90 then Char.ofNat (r.toNat + 32) else r
  else tbl r

/-- Go `strings.ToLower` on valid UTF-8 text. -/
def ToLower (tbl : Char → Char) (s : GoString) : GoString :=
  s.map (unicodeToLower tbl)

/-- Go `strings.Replace(s, old, new, -1)` for one-character `old` and `new`. -/
def Replace (s : GoString) (old new : Char) : GoString :=
  s.map (fun c => if c = old then new else c)

/-- Source `standardize`: updates a config key (`APP_NAME` to `app.name`). -/
def standardize (tbl : Char → Char) (k : GoString) : GoString :=
  Replace (ToLower tbl k) '_' '.'

/-- The process environment, as `os.LookupEnv` reads it. -/
abbrev Environ := GoString → Option GoString

/-- Go `os.Getenv`: the value bound to the key, or the empty string. -/
def Getenv (env : Environ) (key : GoString) : GoString :=
  (env key).getD []

/-- Source `get`: the variable from the OS if it exists, the fallback
otherwise. -/
def get (env : Environ) (key fallback : GoString) : GoString :=
  let v := Getenv env key
  if v ≠ [] then v else fallback

/-- An open file as its reader presents it: the bytes it delivers (valid UTF-8,
as text) and the error the reader raises after the last of them, `none` for a
plain end of file. -/
structure File where
  content : GoString
  readErr : Option GoError

/-- Go `bufio.MaxScanTokenSize`, the size limit of the buffer of a scanner
created by `bufio.NewScanner`. -/
def MaxScanTokenSize : Nat := 64 * 1024

/-- Go `bufio.ErrTooLong`. -/
def ErrTooLong : GoError := ⟨"bufio.Scanner: token too long".toList⟩

/-- Number of bytes of the UTF-8 encoding of a text, Go `len(s)`. -/
def byteLen (s : GoString) : Nat := (s.map Char.utf8Size).sum

/-- Go `bufio.dropCR`: a trailing carriage return is dropped. -/
def dropCR (data : GoString) : GoString :=
  if data.getLast? = some (Char.ofNat 13) then data.dropLast else data

/-- The stretches of text that `bufio.ScanLines` cuts out of the whole input:
each stretch ends at a newline, or at the end of the input when text is left
after the last newline. -/
def rawLines : GoString → List GoString
  | [] => []
  | c :: rest =>
    if c = Char.ofNat 10 then [] :: rawLines rest
    else
      match rawLines rest with
      | [] => [[c]]
      | seg :: segs => (c :: seg) :: segs

/-- The successive `Scan` calls of a scanner with the default buffer over the
stretches left to read: a stretch that does not fit in the buffer together with
its newline (`MaxScanTokenSize` bytes or more) stops the scanner with
`ErrTooLong`; otherwise the stretch, less a trailing carriage return, is the next
token.  When the input is used up, `Err()` is the error of the reader. -/
def scanTokens (readErr : Option GoError) : List GoString → Scanner
  | [] => ⟨[], readErr⟩
  | seg :: rest =>
    if MaxScanTokenSize ≤ byteLen seg then ⟨[], some ErrTooLong⟩
    else ⟨dropCR seg :: (scanTokens readErr rest).lines, (scanTokens readErr rest).err⟩

/-- Go `bufio.NewScanner(file)` run to its end, as `read` uses it. -/
def NewScanner (file : File) : Scanner :=
  scanTokens file.readErr (rawLines file.content)

/-- The file-system calls of `load`: `filepath.Abs`, `filepath.Clean` and
`os.Open`. -/
structure FileSystem where
  Abs : GoString → Except GoError GoString
  Clean : GoString → GoString
  Open : GoString → Except GoError File

/-- Source `load`: reads the given env file and extracts the variables as a
string map. -/
def load (fs : FileSystem) (filename : GoString) : Option VariableMap × Option GoError :=
  match fs.Abs filename with
  | .error err => (none, some err)
  | .ok path =>
    match fs.Open (fs.Clean path) with
    | .error err => (none, some err)
    | .ok file =>
      match read (NewScanner file) with
      | (_, some err) => (none, some err)
      | (vars, none) => (vars, none)

/-- Go `map[string]interface{}` as returned by `Feed`; every value stored in
it is a string. -/
abbrev ResultMap := List (GoString × GoString)

/-- The `for k, v := range values` loop of `Feed`, over the entries in the
order in which the iteration visits them. -/
def feedLoop (env : Environ) (tbl : Char → Char) :
    ResultMap → List (GoString × GoString) → ResultMap
  | m, [] => m
  | m, (k, v) :: rest => feedLoop env tbl (mapSet m (standardize tbl k) (get env k v)) rest

/-- Source `Env.Feed`: returns all the content.  The parameter `range` is the
order in which the iteration over a map visits its entries, which Go leaves
unspecified. -/
def Feed (fs : FileSystem) (env : Environ) (tbl : Char → Char)
    (range : VariableMap → List (GoString × GoString)) (path : GoString) :
    Option ResultMap × Option GoError :=
  match load fs path with
  | (_, some err) => (none, some err)
  | (values, none) => (some (feedLoop env tbl [] (range (values.getD []))), none)

/-! ## Auxiliary facts about trimming and splitting -/

theorem isSpace_eq : isSpace '=' = false := by decide

theorem TrimLeft_append_left (a x : GoString) (ha : ∀ c ∈ a, isSpace c = true) :
    TrimLeft (a ++ x) = TrimLeft x := by
  unfold TrimLeft
  exact List.dropWhile_append_of_pos ha

theorem TrimRight_append_right (x b : GoString) (hb : ∀ c ∈ b, isSpace c = true) :
    TrimRight (x ++ b) = TrimRight x := by
  unfold TrimRight List.rdropWhile
  rw [List.reverse_append, List.dropWhile_append_of_pos]
  intro c hc
  exact hb c (List.mem_reverse.mp hc)

theorem TrimLeft_eq_nil_iff (x : GoString) : TrimLeft x = [] ↔ ∀ c ∈ x, isSpace c = true := by
  unfold TrimLeft
  exact List.dropWhile_eq_nil_iff

theorem TrimRight_eq_nil_iff (x : GoString) :
    TrimRight x = [] ↔ ∀ c ∈ x, isSpace c = true := by
  unfold TrimRight
  exact List.rdropWhile_eq_nil_iff

theorem TrimSpace_append_left (a x : GoString) (ha : ∀ c ∈ a, isSpace c = true) :
    TrimSpace (a ++ x) = TrimSpace x := by
  unfold TrimSpace
  rw [TrimLeft_append_left a x ha]

theorem TrimLeft_append_right (x b : GoString) (hb : ∀ c ∈ b, isSpace c = true) :
    TrimLeft (x ++ b) = [] ∧ TrimLeft x = [] ∨ TrimLeft (x ++ b) = TrimLeft x ++ b := by
  induction x with
  | nil =>
    left
    refine ⟨?_, rfl⟩
    simpa using (TrimLeft_eq_nil_iff b).mpr hb
  | cons c x ih =>
    by_cases hc : isSpace c = true
    · have h1 : TrimLeft (c :: x ++ b) = TrimLeft (x ++ b) := by
        simp [TrimLeft, List.dropWhile_cons, hc]
      have h2 : TrimLeft (c :: x) = TrimLeft x := by
        simp [TrimLeft, List.dropWhile_cons, hc]
      rw [h1, h2]
      exact ih
    · right
      simp [TrimLeft, List.dropWhile_cons, hc]

theorem TrimSpace_append_right (x b : GoString) (hb : ∀ c ∈ b, isSpace c = true) :
    TrimSpace (x ++ b) = TrimSpace x := by
  unfold TrimSpace
  rcases TrimLeft_append_right x b hb with ⟨h1, h2⟩ | h
  · rw [h1, h2]
  · rw [h, TrimRight_append_right _ _ hb]

/-- A line is its trimmed form between a run of leading and a run of trailing
white space. -/
theorem TrimSpace_decompose (s : GoString) :
    ∃ a b, s = a ++ TrimSpace s ++ b ∧ (∀ c ∈ a, isSpace c = true) ∧
      (∀ c ∈ b, isSpace c = true) := by
  refine ⟨s.takeWhile isSpace, (TrimLeft s).rtakeWhile isSpace, ?_, ?_, ?_⟩
  · have h1 : TrimSpace s ++ (TrimLeft s).rtakeWhile isSpace = TrimLeft s := by
      unfold TrimSpace TrimRight List.rdropWhile List.rtakeWhile
      rw [← List.reverse_append, List.takeWhile_append_dropWhile, List.reverse_reverse]
    rw [List.append_assoc, h1]
    unfold TrimLeft
    exact (List.takeWhile_append_dropWhile isSpace s).symm
  · intro c hc
    exact (List.mem_takeWhile_imp hc)
  · intro c hc
    exact List.mem_rtakeWhile_imp hc

theorem Index_split (pre post : GoString) (sep : Char) (h : sep ∉ pre) :
    Index (pre ++ sep :: post) sep = (pre.length : Int) := by
  unfold Index
  rw [if_pos (by simp)]
  rw [List.indexOf_append_of_not_mem h, List.indexOf_cons_self]
  simp

theorem Index_eq_neg_one_iff (s : GoString) (sep : Char) : Index s sep = -1 ↔ sep ∉ s := by
  unfold Index
  by_cases h : sep ∈ s
  · simp only [h, if_true, not_true_eq_false, iff_false]
    omega
  · simp [h]

/-- Splitting a string at the first occurrence of a character it contains. -/
theorem split_first (s : GoString) (sep : Char) (h : sep ∈ s) :
    ∃ pre post, s = pre ++ sep :: post ∧ sep ∉ pre := by
  induction s with
  | nil => simp at h
  | cons c s ih =>
    by_cases hc : c = sep
    · exact ⟨[], s, by simp [hc], by simp⟩
    · have hs : sep ∈ s := by
        rcases List.mem_cons.mp h with h1 | h1
        · exact absurd h1.symm hc
        · exact h1
      obtain ⟨pre, post, e, hn⟩ := ih hs
      refine ⟨c :: pre, post, by simp [e], ?_⟩
      simp only [List.mem_cons, not_or]
      exact ⟨fun h2 => hc h2.symm, hn⟩

/-- The value of `parse` on a line whose trimmed form is `pre ++ "=" ++ post`
with no `=` in `pre`. -/
theorem parse_of_trim_split (line pre post : GoString)
    (hne : (TrimSpace line).head? ≠ some '#')
    (e : TrimSpace line = pre ++ '=' :: post) (hpre : '=' ∉ pre) :
    parse line = (TrimSpace pre, TrimSpace post, none) := by
  unfold parse
  simp only []
  have hlen : ¬ (TrimSpace line).length = 0 := by
    rw [e]; simp
  rw [if_neg hlen, if_neg (by simpa using hne)]
  have hidx : Index (TrimSpace line) '=' = (pre.length : Int) := by
    rw [e]; exact Index_split pre post '=' hpre
  rw [hidx]
  have h1 : ¬ ((pre.length : Int) = -1) := by omega
  rw [if_neg h1, e]
  simp

theorem takeWhile_ne_split (pre post : GoString) (sep : Char) (h : sep ∉ pre) :
    (pre ++ sep :: post).takeWhile (fun c => decide (c ≠ sep)) = pre := by
  rw [List.takeWhile_append_of_pos]
  · simp
  · intro c hc
    simp only [ne_eq, decide_not, Bool.not_eq_true', decide_eq_false_iff_not]
    intro hcs
    exact h (hcs ▸ hc)

theorem dropWhile_ne_split (pre post : GoString) (sep : Char) (h : sep ∉ pre) :
    (pre ++ sep :: post).dropWhile (fun c => decide (c ≠ sep)) = sep :: post := by
  rw [List.dropWhile_append_of_pos]
  · simp
  · intro c hc
    simp only [ne_eq, decide_not, Bool.not_eq_true', decide_eq_false_iff_not]
    intro hcs
    exact h (hcs ▸ hc)

/-! ## Auxiliary facts about the map and the scanning loop -/

theorem mapGet_mapSet (m : VariableMap) (k v k2 : GoString) :
    mapGet (mapSet m k v) k2 = if k = k2 then some v else mapGet m k2 := by
  induction m with
  | nil => simp [mapSet, mapGet]
  | cons p rest ih =>
    obtain ⟨k0, v0⟩ := p
    by_cases h0 : k0 = k
    · subst h0
      by_cases h2 : k0 = k2 <;> simp [mapSet, mapGet, h2]
    · by_cases h2 : k0 = k2
      · subst h2
        have hk : ¬ k = k0 := fun h => h0 h.symm
        simp [mapSet, mapGet, h0, hk]
      · simp [mapSet, mapGet, h0, h2, ih]

theorem mem_mapKeys_mapSet (m : VariableMap) (k v k2 : GoString) :
    k2 ∈ mapKeys (mapSet m k v) ↔ k2 = k ∨ k2 ∈ mapKeys m := by
  induction m with
  | nil => simp [mapSet, mapKeys]
  | cons p rest ih =>
    obtain ⟨k0, v0⟩ := p
    by_cases h0 : k0 = k
    · subst h0
      simp [mapSet, mapKeys]
    · have ih2 : k2 ∈ List.map Prod.fst (mapSet rest k v) ↔
          k2 = k ∨ k2 ∈ List.map Prod.fst rest := ih
      simp only [mapSet, h0, if_false, mapKeys, List.map_cons, List.mem_cons, ih2]
      tauto

theorem scanLoop_cons_ok (items : VariableMap) (line : GoString) (rest : List GoString)
    (h : (parse line).2.2 = none) :
    scanLoop items (line :: rest) = scanLoop (loopStep items line) rest := by
  rcases hp : parse line with ⟨key, value, err⟩
  rw [hp] at h
  simp only at h
  subst h
  unfold loopStep
  rw [scanLoop, hp]
  simp only []
  by_cases hk : key = []
  · simp [hk]
  · simp [hk]

theorem scanLoop_cons_error (items : VariableMap) (line : GoString) (rest : List GoString)
    (e : GoError) (h : (parse line).2.2 = some e) :
    scanLoop items (line :: rest) = .error e := by
  rcases hp : parse line with ⟨key, value, err⟩
  rw [hp] at h
  simp only at h
  subst h
  rw [scanLoop, hp]

theorem scanLoop_append_ok (pre post : List GoString) :
    ∀ items : VariableMap, (∀ l ∈ pre, (parse l).2.2 = none) →
      scanLoop items (pre ++ post) = scanLoop (pre.foldl loopStep items) post := by
  induction pre with
  | nil => intro items _; rfl
  | cons l pre ih =>
    intro items h
    have hl : (parse l).2.2 = none := h l (List.mem_cons_self _ _)
    have hpre : ∀ l2 ∈ pre, (parse l2).2.2 = none :=
      fun l2 h2 => h l2 (List.mem_cons_of_mem _ h2)
    rw [List.cons_append, scanLoop_cons_ok items l (pre ++ post) hl, ih _ hpre]
    rfl

theorem scanLoop_all_ok (lines : List GoString) (items : VariableMap)
    (h : ∀ l ∈ lines, (parse l).2.2 = none) :
    scanLoop items lines = .ok (lines.foldl loopStep items) := by
  have := scanLoop_append_ok lines [] items h
  rw [List.append_nil] at this
  rw [this]
  rfl

/-- Every sequence of lines either parses cleanly throughout, or has a first
malformed line. -/
theorem first_malformed (lines : List GoString) :
    (∀ l ∈ lines, (parse l).2.2 = none) ∨
      ∃ pre l post e, lines = pre ++ l :: post ∧ (∀ l2 ∈ pre, (parse l2).2.2 = none) ∧
        (parse l).2.2 = some e := by
  induction lines with
  | nil => left; simp
  | cons l rest ih =>
    cases hl : (parse l).2.2 with
    | some e => exact Or.inr ⟨[], l, rest, e, rfl, by simp, hl⟩
    | none =>
      rcases ih with h | ⟨pre, l0, post, e, h1, h2, h3⟩
      · left
        intro l2 h2
        rcases List.mem_cons.mp h2 with h3 | h3
        · rw [h3]; exact hl
        · exact h l2 h3
      · right
        refine ⟨l :: pre, l0, post, e, by simp [h1], ?_, h3⟩
        intro l2 h4
        rcases List.mem_cons.mp h4 with h5 | h5
        · rw [h5]; exact hl
        · exact h2 l2 h5

theorem scanLoop_first_malformed (pre post : List GoString) (l : GoString) (e : GoError)
    (items : VariableMap) (h1 : ∀ l2 ∈ pre, (parse l2).2.2 = none)
    (h2 : (parse l).2.2 = some e) :
    scanLoop items (pre ++ l :: post) = .error e := by
  rw [scanLoop_append_ok pre (l :: post) items h1]
  exact scanLoop_cons_error _ l post e h2

theorem mapGet_loopStep (m : VariableMap) (l k : GoString) :
    mapGet (loopStep m l) k =
      if (parse l).1 ≠ [] ∧ (parse l).1 = k then some (parse l).2.1 else mapGet m k := by
  unfold loopStep
  by_cases h1 : (parse l).1 = []
  · simp [h1]
  · rw [if_pos h1, mapGet_mapSet]
    by_cases h2 : (parse l).1 = k
    · rw [if_pos h2, if_pos ⟨h1, h2⟩]
    · rw [if_neg h2, if_neg (fun h => h2 h.2)]

/-- The two ways in which a list ending in `l` can be cut around an element. -/
theorem concat_eq_split {α : Type} (init pre post : List α) (l l0 : α)
    (e : init ++ [l] = pre ++ l0 :: post) :
    (post = [] ∧ init = pre ∧ l = l0) ∨
      ∃ post2, post = post2 ++ [l] ∧ init = pre ++ l0 :: post2 := by
  rcases List.eq_nil_or_concat post with hp | ⟨post2, x, hp⟩
  · subst hp
    left
    have h := List.append_inj' e rfl
    refine ⟨rfl, h.1, ?_⟩
    simpa using h.2
  · right
    rw [List.concat_eq_append] at hp
    subst hp
    have e2 : init ++ [l] = (pre ++ l0 :: post2) ++ [x] := by simpa using e
    have h := List.append_inj' e2 rfl
    have hx : l = x := by simpa using h.2
    subst hx
    exact ⟨post2, rfl, h.1⟩

/-- What the loop of `read` has stored once it has consumed cleanly parsed
lines: under each key the value of the last line carrying that key. -/
theorem mapGet_foldl_loopStep (lines : List GoString) (k v : GoString) :
    mapGet (lines.foldl loopStep []) k = some v ↔
      k ≠ [] ∧ ∃ pre l post, lines = pre ++ l :: post ∧ (parse l).1 = k ∧
        (parse l).2.1 = v ∧ ∀ l2 ∈ post, (parse l2).1 ≠ k := by
  induction lines using List.reverseRecOn with
  | nil => simp [mapGet]
  | append_singleton init l ih =>
    rw [List.foldl_append]
    simp only [List.foldl_cons, List.foldl_nil]
    rw [mapGet_loopStep]
    by_cases hk : (parse l).1 ≠ [] ∧ (parse l).1 = k
    · rw [if_pos hk]
      constructor
      · intro hv
        refine ⟨hk.2 ▸ hk.1, init, l, [], rfl, hk.2, by simpa using hv, by simp⟩
      · rintro ⟨_, pre, l0, post, e, _, hv0, hpost⟩
        rcases concat_eq_split init pre post l l0 e with ⟨_, _, h3⟩ | ⟨post2, h1, _⟩
        · rw [h3, hv0]
        · exact absurd hk.2 (hpost l (by simp [h1]))
    · rw [if_neg hk, ih]
      constructor
      · rintro ⟨hne, pre, l0, post, e, hk0, hv0, hpost⟩
        refine ⟨hne, pre, l0, post ++ [l], by simp [e], hk0, hv0, ?_⟩
        intro l2 h2
        rcases List.mem_append.mp h2 with h3 | h3
        · exact hpost l2 h3
        · have : l2 = l := by simpa using h3
          subst this
          intro h4
          exact hk ⟨h4 ▸ hne, h4⟩
      · rintro ⟨hne, pre, l0, post, e, hk0, hv0, hpost⟩
        rcases concat_eq_split init pre post l l0 e with ⟨_, _, h3⟩ | ⟨post2, h1, h2⟩
        · subst h3
          exact absurd ⟨hk0 ▸ hne, hk0⟩ hk
        · refine ⟨hne, pre, l0, post2, h2, hk0, hv0, ?_⟩
          intro l2 h3
          exact hpost l2 (by simp [h1, h3])

theorem mem_mapKeys_loopStep (m : VariableMap) (l k : GoString) :
    k ∈ mapKeys (loopStep m l) ↔ ((parse l).1 ≠ [] ∧ k = (parse l).1) ∨ k ∈ mapKeys m := by
  unfold loopStep
  by_cases h1 : (parse l).1 = []
  · simp [h1]
  · rw [if_pos h1, mem_mapKeys_mapSet]
    simp [h1]

/-- The keys of the map built by the loop of `read` from cleanly parsed lines:
the keys it started with and the non-empty keys of the lines. -/
theorem mem_mapKeys_foldl_loopStep (lines : List GoString) :
    ∀ (items : VariableMap) (k : GoString), k ∈ mapKeys (lines.foldl loopStep items) ↔
      k ∈ mapKeys items ∨ (k ≠ [] ∧ ∃ l ∈ lines, (parse l).1 = k) := by
  induction lines with
  | nil => intro items k; simp
  | cons l rest ih =>
    intro items k
    rw [List.foldl_cons, ih, mem_mapKeys_loopStep]
    constructor
    · rintro ((⟨h1, h2⟩ | h) | ⟨h1, l2, h2, h3⟩)
      · exact Or.inr ⟨h2 ▸ h1, l, List.mem_cons_self _ _, h2.symm⟩
      · exact Or.inl h
      · exact Or.inr ⟨h1, l2, List.mem_cons_of_mem _ h2, h3⟩
    · rintro (h | ⟨h1, l2, h2, h3⟩)
      · exact Or.inl (Or.inr h)
      · rcases List.mem_cons.mp h2 with h4 | h4
        · subst h4
          exact Or.inl (Or.inl ⟨h3 ▸ h1, h3.symm⟩)
        · exact Or.inr ⟨h1, l2, h4, h3⟩

theorem read_all_ok (lines : List GoString) (h : ∀ l ∈ lines, (parse l).2.2 = none) :
    read ⟨lines, none⟩ = (some (lines.foldl loopStep []), none) := by
  unfold read
  simp only []
  rw [scanLoop_all_ok lines [] h]

theorem parse_blank (line : GoString)
    (h : TrimSpace line = [] ∨ (TrimSpace line).head? = some '#') :
    parse line = ([], [], none) := by
  unfold parse
  simp only []
  rcases h with h | h
  · simp [h]
  · simp [h]

theorem scanLoop_cons_congr (l : GoString) (a b : List GoString)
    (h : ∀ items, scanLoop items a = scanLoop items b) (items : VariableMap) :
    scanLoop items (l :: a) = scanLoop items (l :: b) := by
  cases hl : (parse l).2.2 with
  | none => rw [scanLoop_cons_ok items l a hl, scanLoop_cons_ok items l b hl, h]
  | some e => rw [scanLoop_cons_error items l a e hl, scanLoop_cons_error items l b e hl]

/-- Dropping the blank and comment lines does not change what the loop of
`read` computes. -/
theorem scanLoop_filter (lines : List GoString) :
    ∀ items, scanLoop items lines =
      scanLoop items (lines.filter (fun l =>
        !(decide (TrimSpace l = []) || decide ((TrimSpace l).head? = some '#')))) := by
  induction lines with
  | nil => intro items; rfl
  | cons l rest ih =>
    intro items
    by_cases hb : TrimSpace l = [] ∨ (TrimSpace l).head? = some '#'
    · have hp := parse_blank l hb
      have hf : (decide (TrimSpace l = []) || decide ((TrimSpace l).head? = some '#')) = true := by
        simpa using hb
      rw [List.filter_cons_of_neg (by simp [hf]), ← ih items,
        scanLoop_cons_ok items l rest (by rw [hp])]
      unfold loopStep
      rw [hp]
      simp
    · have hf : (decide (TrimSpace l = []) || decide ((TrimSpace l).head? = some '#')) = false := by
        simpa using hb
      rw [List.filter_cons_of_pos (by simp [hf])]
      exact scanLoop_cons_congr l _ _ ih items

/-! ## Auxiliary facts about the key normaliser -/

theorem toNat_ofNat_ascii : ∀ n, n < 128 → (Char.ofNat n).toNat = n := by
  decide

/-- The character that `standardize` puts in the place of `c`. -/
theorem standardize_eq_map (tbl : Char → Char) (k : GoString) :
    standardize tbl k =
      k.map (fun c => if unicodeToLower tbl c = '_' then '.' else unicodeToLower tbl c) := by
  unfold standardize Replace ToLower
  rw [List.map_map]
  rfl

theorem unicodeToLower_upper (tbl : Char → Char) (c : Char)
    (h : 65 ≤ c.toNat ∧ c.toNat ≤ 90) :
    unicodeToLower tbl c = Char.ofNat (c.toNat + 32) := by
  unfold unicodeToLower
  rw [if_pos (by omega), if_pos h]

theorem unicodeToLower_ascii_other (tbl : Char → Char) (c : Char) (h1 : c.toNat ≤ 127)
    (h : ¬ (65 ≤ c.toNat ∧ c.toNat ≤ 90)) : unicodeToLower tbl c = c := by
  unfold unicodeToLower
  rw [if_pos h1, if_neg h]

theorem unicodeToLower_non_ascii (tbl : Char → Char) (c : Char) (h1 : 127 < c.toNat) :
    unicodeToLower tbl c = tbl c := by
  unfold unicodeToLower
  rw [if_neg (by omega)]

theorem toNat_lower_of_upper (c : Char) (h : 65 ≤ c.toNat ∧ c.toNat ≤ 90) :
    (Char.ofNat (c.toNat + 32)).toNat = c.toNat + 32 :=
  toNat_ofNat_ascii (c.toNat + 32) (by omega)

theorem unicodeToLower_ascii_idem (tbl : Char → Char) (c : Char) (h1 : c.toNat ≤ 127) :
    unicodeToLower tbl (unicodeToLower tbl c) = unicodeToLower tbl c := by
  by_cases h : 65 ≤ c.toNat ∧ c.toNat ≤ 90
  · rw [unicodeToLower_upper tbl c h]
    have ht := toNat_lower_of_upper c h
    exact unicodeToLower_ascii_other tbl _ (by omega) (by omega)
  · rw [unicodeToLower_ascii_other tbl c h1 h]
    exact unicodeToLower_ascii_other tbl c h1 h

theorem unicodeToLower_dot (tbl : Char → Char) : unicodeToLower tbl '.' = '.' :=
  unicodeToLower_ascii_other tbl '.' (by decide) (by decide)

theorem toNat_underscore (c : Char) (h : c = '_') : c.toNat = 95 := by
  subst h
  decide

/-- The character-wise step of `standardize` is idempotent at every character
on which `unicode.ToLower` is. -/
theorem standardize_char_idem (tbl : Char → Char) (c : Char)
    (h : unicodeToLower tbl (unicodeToLower tbl c) = unicodeToLower tbl c) :
    (fun c => if unicodeToLower tbl c = '_' then '.' else unicodeToLower tbl c)
      ((fun c => if unicodeToLower tbl c = '_' then '.' else unicodeToLower tbl c) c) =
    (fun c => if unicodeToLower tbl c = '_' then '.' else unicodeToLower tbl c) c := by
  simp only []
  by_cases h1 : unicodeToLower tbl c = '_'
  · rw [if_pos h1, unicodeToLower_dot, if_neg (by decide)]
  · rw [if_neg h1, h, if_neg h1]

/-! ## The line parser -/

/-- C1: a line whose trimmed form is non-empty, does not start with `#` and
contains `=` is parsed without error; the key is the trimmed text that stands
before the first `=` of the line and the value is the trimmed text that stands
after that first `=`, later `=` characters included. -/
theorem parse_splits_at_first_eq (line : GoString)
    (_hne : TrimSpace line ≠ []) (hc : (TrimSpace line).head? ≠ some '#')
    (heq : '=' ∈ TrimSpace line) :
    line = line.takeWhile (fun c => decide (c ≠ '=')) ++
        '=' :: (line.dropWhile (fun c => decide (c ≠ '='))).drop 1 ∧
      '=' ∉ line.takeWhile (fun c => decide (c ≠ '=')) ∧
      parse line = (TrimSpace (line.takeWhile (fun c => decide (c ≠ '='))),
        TrimSpace ((line.dropWhile (fun c => decide (c ≠ '='))).drop 1), none) := by
  obtain ⟨a, b, hline, ha, hb⟩ := TrimSpace_decompose line
  obtain ⟨pre, post, e, hpre⟩ := split_first (TrimSpace line) '=' heq
  have hpar := parse_of_trim_split line pre post hc e hpre
  have ha2 : '=' ∉ a ++ pre := by
    simp only [List.mem_append, not_or]
    refine ⟨fun h => ?_, hpre⟩
    have := ha _ h
    rw [isSpace_eq] at this
    exact Bool.noConfusion this
  have hl : line = (a ++ pre) ++ '=' :: (post ++ b) := by
    conv_lhs => rw [hline, e]
    simp
  have ht := takeWhile_ne_split (a ++ pre) (post ++ b) '=' ha2
  have hd := dropWhile_ne_split (a ++ pre) (post ++ b) '=' ha2
  rw [← hl] at ht hd
  rw [ht, hd]
  refine ⟨by simpa using hl, ha2, ?_⟩
  rw [hpar, TrimSpace_append_left a pre ha]
  simp only [List.drop_succ_cons, List.drop_zero]
  rw [TrimSpace_append_right post b hb]

/-- Instance of C1 at the line `URL=http://x?a=1`. -/
theorem parse_splits_at_first_eq_witness :
    parse "URL=http://x?a=1".toList = ("URL".toList, "http://x?a=1".toList, none) ∧
      ("URL=http://x?a=1".toList = "URL=http://x?a=1".toList.takeWhile (fun c => decide (c ≠ '=')) ++
          '=' :: ("URL=http://x?a=1".toList.dropWhile (fun c => decide (c ≠ '='))).drop 1 ∧
        '=' ∉ "URL=http://x?a=1".toList.takeWhile (fun c => decide (c ≠ '=')) ∧
        parse "URL=http://x?a=1".toList =
          (TrimSpace ("URL=http://x?a=1".toList.takeWhile (fun c => decide (c ≠ '='))),
            TrimSpace (("URL=http://x?a=1".toList.dropWhile (fun c => decide (c ≠ '='))).drop 1),
            none)) :=
  ⟨by decide,
    parse_splits_at_first_eq "URL=http://x?a=1".toList (by decide) (by decide) (by decide)⟩

/-- C2: `parse` returns an error exactly when the trimmed line is non-empty,
does not start with `#` and contains no `=`; the key and the value returned
with the error are empty and the message is `Invalid line: ` followed by the
trimmed line. -/
theorem parse_error_iff (line : GoString) :
    ((parse line).2.2 ≠ none ↔
      (TrimSpace line ≠ [] ∧ (TrimSpace line).head? ≠ some '#' ∧ '=' ∉ TrimSpace line)) ∧
    ((parse line).2.2 ≠ none →
      parse line = ([], [], some ⟨"Invalid line: ".toList ++ TrimSpace line⟩)) := by
  unfold parse
  simp only []
  by_cases h1 : (TrimSpace line).length = 0
  · have h1n : TrimSpace line = [] := List.length_eq_zero.mp h1
    simp [h1n]
  · have h1n : TrimSpace line ≠ [] := fun h => h1 (by simp [h])
    rw [if_neg h1]
    by_cases h2 : (TrimSpace line).head? = some '#'
    · simp [h2]
    · rw [if_neg h2]
      by_cases h3 : Index (TrimSpace line) '=' = -1
      · have h3n := (Index_eq_neg_one_iff _ _).mp h3
        rw [if_pos h3]
        simp [h1n, h2, h3n, invalidLine]
      · have h3n : ¬ ('=' ∉ TrimSpace line) := fun h => h3 ((Index_eq_neg_one_iff _ _).mpr h)
        rw [if_neg h3]
        simp [h3n]

/-- Instance of C2 at the line `NOVALUE`. -/
theorem parse_error_iff_witness :
    parse " NOVALUE ".toList = ([], [], some ⟨"Invalid line: NOVALUE".toList⟩) ∧
      (parse " NOVALUE ".toList).2.2 ≠ none ∧
      parse " NOVALUE ".toList =
        ([], [], some ⟨"Invalid line: ".toList ++ TrimSpace " NOVALUE ".toList⟩) :=
  ⟨by decide, by decide, (parse_error_iff " NOVALUE ".toList).2 (by decide)⟩

/-- C3: a line whose trimmed form is empty or starts with `#` yields the empty
key, the empty value and no error, whether or not it contains `=`. -/
theorem parse_blank_or_comment (line : GoString)
    (h : TrimSpace line = [] ∨ (TrimSpace line).head? = some '#') :
    parse line = ([], [], none) :=
  parse_blank line h

/-- Instance of C3 at the comment line `#A=1`. -/
theorem parse_blank_or_comment_witness :
    (TrimSpace "#A=1".toList).head? = some '#' ∧ parse "#A=1".toList = ([], [], none) :=
  ⟨by decide, parse_blank_or_comment "#A=1".toList (Or.inr (by decide))⟩

/-! ## The variable loader -/

/-- C4: when every line parses without error, `read` returns a map and no
error, and the map binds a key `k` to `v` exactly when `k` is non-empty and `v`
is the value parsed from the last line whose parsed key is `k` (keys compared
exactly); the lines `A=1`, `A=2` give the map with the single entry `A` to
`2`. -/
theorem read_last_line_wins (lines : List GoString)
    (h : ∀ l ∈ lines, (parse l).2.2 = none) :
    ∃ m, read ⟨lines, none⟩ = (some m, none) ∧
      ∀ k v, mapGet m k = some v ↔
        k ≠ [] ∧ ∃ pre l post, lines = pre ++ l :: post ∧ (parse l).1 = k ∧
          (parse l).2.1 = v ∧ ∀ l2 ∈ post, (parse l2).1 ≠ k :=
  ⟨lines.foldl loopStep [], read_all_ok lines h, mapGet_foldl_loopStep lines⟩

/-- Instance of C4 at the lines `A=1`, `A=2`. -/
theorem read_last_line_wins_witness :
    read ⟨["A=1".toList, "A=2".toList], none⟩ = (some [("A".toList, "2".toList)], none) ∧
      ∃ m, read ⟨["A=1".toList, "A=2".toList], none⟩ = (some m, none) ∧
        ∀ k v, mapGet m k = some v ↔
          k ≠ [] ∧ ∃ pre l post, ["A=1".toList, "A=2".toList] = pre ++ l :: post ∧
            (parse l).1 = k ∧ (parse l).2.1 = v ∧ ∀ l2 ∈ post, (parse l2).1 ≠ k :=
  ⟨by decide, read_last_line_wins ["A=1".toList, "A=2".toList] (by decide)⟩

/-- Over the lines a scanner has delivered and the error `se` it ended with:
`read` fails exactly when some line makes `parse` fail or `se` is an error;
whenever `read` fails it returns no map; and when a line is malformed the
error of `read` is the parse error of the first malformed line, whatever
follows it. -/
theorem read_delivered_fails_iff (lines : List GoString) :
    ((read ⟨lines, none⟩).2 ≠ none ↔ ∃ l ∈ lines, (parse l).2.2 ≠ none) ∧
    (∀ se, (read ⟨lines, se⟩).2 ≠ none → (read ⟨lines, se⟩).1 = none) ∧
    (∀ se pre l post e, lines = pre ++ l :: post →
      (∀ l2 ∈ pre, (parse l2).2.2 = none) → (parse l).2.2 = some e →
      read ⟨lines, se⟩ = (none, some e)) ∧
    (∀ se, (read ⟨lines, se⟩).2 ≠ none ↔
      (∃ l ∈ lines, (parse l).2.2 ≠ none) ∨ se ≠ none) := by
  have h3 : ∀ se pre l post e, lines = pre ++ l :: post →
      (∀ l2 ∈ pre, (parse l2).2.2 = none) → (parse l).2.2 = some e →
      read ⟨lines, se⟩ = (none, some e) := by
    intro se pre l post e hl hpre he
    unfold read
    simp only []
    rw [hl, scanLoop_first_malformed pre post l e [] hpre he]
  refine ⟨?_, ?_, h3, ?_⟩
  · rcases first_malformed lines with hok | ⟨pre, l, post, e, hl, hpre, he⟩
    · rw [read_all_ok lines hok]
      simp only [ne_eq, not_true_eq_false, false_iff, not_exists, not_and, not_not]
      exact hok
    · rw [h3 none pre l post e hl hpre he]
      simp only [ne_eq, reduceCtorEq, not_false_eq_true, true_iff]
      exact ⟨l, by simp [hl], by simp [he]⟩
  rotate_left
  · intro se
    rcases first_malformed lines with hok | ⟨pre, l, post, e, hl, hpre, he⟩
    · have hno : ¬ ∃ l ∈ lines, (parse l).2.2 ≠ none := by
        rintro ⟨l, hl, hne⟩
        exact hne (hok l hl)
      unfold read
      simp only []
      rw [scanLoop_all_ok lines [] hok]
      cases se with
      | none => simp [hno]
      | some e => simp
    · rw [h3 se pre l post e hl hpre he]
      simp only [ne_eq, reduceCtorEq, not_false_eq_true, true_iff]
      exact Or.inl ⟨l, by simp [hl], by simp [he]⟩
  · intro se
    unfold read
    simp only []
    cases scanLoop [] lines with
    | error e => simp
    | ok items =>
      cases se with
      | none => simp
      | some e => simp

/-- Over the lines a scanner has delivered, the blank and comment lines
contribute nothing to the result of `read`. -/
theorem read_delivered_filter (lines : List GoString) (se : Option GoError) :
    read ⟨lines, se⟩ =
      read ⟨lines.filter (fun l =>
        !(decide (TrimSpace l = []) || decide ((TrimSpace l).head? = some '#'))), se⟩ := by
  unfold read
  simp only []
  rw [← scanLoop_filter lines []]

/-- C7 as stated fails: the single line `=1` parses without error and is
neither blank nor a comment, yet the empty key that `parse` extracts from it
is not a key of the (empty) map that `read` returns. -/
theorem read_inserts_every_key_counterexample :
    (∀ l ∈ ["=1".toList], (parse l).2.2 = none) ∧
      TrimSpace "=1".toList ≠ [] ∧ (TrimSpace "=1".toList).head? ≠ some '#' ∧
      parse "=1".toList = ([], "1".toList, none) ∧
      read ⟨["=1".toList], none⟩ = (some [], none) ∧
      (parse "=1".toList).1 ∉ mapKeys [] := by
  decide

/-- C7, amended: when every line parses without error, `read` returns a map,
and for every line that is neither blank nor a comment and from which `parse`
extracts a non-empty key, that key is a key of the map. -/
theorem read_inserts_every_nonempty_key (lines : List GoString)
    (h : ∀ l ∈ lines, (parse l).2.2 = none) :
    ∃ m, read ⟨lines, none⟩ = (some m, none) ∧
      ∀ l ∈ lines, TrimSpace l ≠ [] → (TrimSpace l).head? ≠ some '#' →
        (parse l).1 ≠ [] → (parse l).1 ∈ mapKeys m := by
  refine ⟨lines.foldl loopStep [], read_all_ok lines h, ?_⟩
  intro l hl _ _ hk
  exact (mem_mapKeys_foldl_loopStep lines [] (parse l).1).mpr (Or.inr ⟨hk, l, hl, rfl⟩)

/-- Instance of amended C7 at the lines `=1`, `A=2`. -/
theorem read_inserts_every_nonempty_key_witness :
    read ⟨["=1".toList, "A=2".toList], none⟩ = (some [("A".toList, "2".toList)], none) ∧
      ∃ m, read ⟨["=1".toList, "A=2".toList], none⟩ = (some m, none) ∧
        ∀ l ∈ ["=1".toList, "A=2".toList], TrimSpace l ≠ [] →
          (TrimSpace l).head? ≠ some '#' → (parse l).1 ≠ [] → (parse l).1 ∈ mapKeys m :=
  ⟨by decide, read_inserts_every_nonempty_key ["=1".toList, "A=2".toList] (by decide)⟩

/-! ## The key normaliser and the environment resolver -/

/-- C8: `standardize` is idempotent, `standardize (standardize k) = standardize
k`, for every key `k` each of whose non-ASCII characters is sent by the case
tables of `unicode.ToLower` to a character that `unicode.ToLower` leaves alone
(no condition at all on an ASCII key); and a key that is already lowercase and
contains no `_` is returned unchanged. -/
theorem standardize_idempotent (tbl : Char → Char) (k : GoString) :
    ((∀ c ∈ k, 127 < c.toNat → unicodeToLower tbl (tbl c) = tbl c) →
      standardize tbl (standardize tbl k) = standardize tbl k) ∧
    ((∀ c ∈ k, unicodeToLower tbl c = c) → '_' ∉ k → standardize tbl k = k) := by
  constructor
  · intro hk
    rw [standardize_eq_map tbl k, standardize_eq_map, List.map_map]
    apply List.map_congr_left
    intro c hc
    apply standardize_char_idem
    by_cases h1 : c.toNat ≤ 127
    · exact unicodeToLower_ascii_idem tbl c h1
    · rw [unicodeToLower_non_ascii tbl c (by omega)]
      exact hk c hc (by omega)
  · intro hlow hno
    rw [standardize_eq_map]
    conv_rhs => rw [← List.map_id k]
    apply List.map_congr_left
    intro c hc
    have hne : ¬ c = '_' := fun h => hno (h ▸ hc)
    simp only [hlow c hc, if_neg hne, id]

/-- Instance of C8: a key with an uppercase non-ASCII letter, for case tables
that send U+00C9 to U+00E9, and the lowercase key `app.name`. -/
theorem standardize_idempotent_witness :
    standardize (fun c => if c.toNat = 201 then Char.ofNat 233 else c)
        (standardize (fun c => if c.toNat = 201 then Char.ofNat 233 else c)
          [Char.ofNat 201, '_', 'A']) =
      standardize (fun c => if c.toNat = 201 then Char.ofNat 233 else c)
        [Char.ofNat 201, '_', 'A'] ∧
    standardize (fun c => if c.toNat = 201 then Char.ofNat 233 else c)
        [Char.ofNat 201, '_', 'A'] = [Char.ofNat 233, '.', 'a'] ∧
    standardize id "app.name".toList = "app.name".toList :=
  ⟨(standardize_idempotent (fun c => if c.toNat = 201 then Char.ofNat 233 else c)
      [Char.ofNat 201, '_', 'A']).1 (by decide),
    by decide,
    (standardize_idempotent id "app.name".toList).2 (by decide) (by decide)⟩

/-- C9: for an ASCII key `k`, `standardize k` has the length of `k` and holds at
each position `.` where `k` has `_`, the lowercase letter where `k` has a
letter `A` to `Z`, and the character of `k` otherwise; the result has no `_`
and no letter `A` to `Z`; `APP_NAME` becomes `app.name`. -/
theorem standardize_ascii (tbl : Char → Char) (k : GoString)
    (hk : ∀ c ∈ k, c.toNat ≤ 127) :
    (standardize tbl k).length = k.length ∧
    standardize tbl k = k.map (fun c =>
      if c = '_' then '.'
      else if 65 ≤ c.toNat ∧ c.toNat ≤ 90 then Char.ofNat (c.toNat + 32) else c) ∧
    '_' ∉ standardize tbl k ∧
    (∀ c ∈ standardize tbl k, ¬ (65 ≤ c.toNat ∧ c.toNat ≤ 90)) ∧
    standardize tbl "APP_NAME".toList = "app.name".toList := by
  have hmap : standardize tbl k = k.map (fun c =>
      if c = '_' then '.'
      else if 65 ≤ c.toNat ∧ c.toNat ≤ 90 then Char.ofNat (c.toNat + 32) else c) := by
    rw [standardize_eq_map]
    apply List.map_congr_left
    intro c hc
    have h1 := hk c hc
    by_cases h : 65 ≤ c.toNat ∧ c.toNat ≤ 90
    · have ht := toNat_lower_of_upper c h
      have hne : ¬ c = '_' := fun e => by
        have := toNat_underscore c e
        omega
      have hne2 : ¬ Char.ofNat (c.toNat + 32) = '_' := fun e => by
        have := toNat_underscore _ e
        omega
      simp only [unicodeToLower_upper tbl c h, if_neg hne, if_neg hne2, if_pos h]
    · by_cases hu : c = '_'
      · simp only [unicodeToLower_ascii_other tbl c h1 h, if_pos hu]
      · simp only [unicodeToLower_ascii_other tbl c h1 h, if_neg hu, if_neg h]
  refine ⟨by rw [hmap, List.length_map], hmap, ?_, ?_, ?_⟩
  · rw [hmap]
    intro hmem
    obtain ⟨c, hc, e⟩ := List.mem_map.mp hmem
    by_cases hu : c = '_'
    · rw [if_pos hu] at e
      exact absurd e (by decide)
    · rw [if_neg hu] at e
      by_cases h : 65 ≤ c.toNat ∧ c.toNat ≤ 90
      · rw [if_pos h] at e
        have ht := toNat_lower_of_upper c h
        have := toNat_underscore _ e
        omega
      · rw [if_neg h] at e
        exact hu e
  · rw [hmap]
    intro d hmem
    obtain ⟨c, hc, e⟩ := List.mem_map.mp hmem
    by_cases hu : c = '_'
    · rw [if_pos hu] at e
      rw [← e]
      decide
    · rw [if_neg hu] at e
      by_cases h : 65 ≤ c.toNat ∧ c.toNat ≤ 90
      · rw [if_pos h] at e
        have ht := toNat_lower_of_upper c h
        rw [← e]
        omega
      · rw [if_neg h] at e
        rw [← e]
        exact h
  · rw [standardize_eq_map]
    simp only [String.toList, List.map_cons, List.map_nil]
    rw [unicodeToLower_upper tbl 'A' (by decide), unicodeToLower_upper tbl 'P' (by decide),
      unicodeToLower_upper tbl 'N' (by decide), unicodeToLower_upper tbl 'M' (by decide),
      unicodeToLower_upper tbl 'E' (by decide),
      unicodeToLower_ascii_other tbl '_' (by decide) (by decide)]
    decide

/-- Instance of C9 at the key `My_Key9`. -/
theorem standardize_ascii_witness :
    standardize id "My_Key9".toList = "my.key9".toList ∧
      (standardize id "My_Key9".toList).length = "My_Key9".toList.length ∧
      '_' ∉ standardize id "My_Key9".toList :=
  ⟨by decide, (standardize_ascii id "My_Key9".toList (by decide)).1,
    (standardize_ascii id "My_Key9".toList (by decide)).2.2.1⟩

/-- C10: when the environment binds the key to a non-empty string `e`, `get`
returns `e` whatever the fallback is; with `APP_NAME` bound to `override` the
file value `demo` resolves to `override`. -/
theorem get_prefers_environment (env : Environ) (key fallback e : GoString)
    (hbound : env key = some e) (hne : e ≠ []) : get env key fallback = e := by
  unfold get Getenv
  simp only [hbound, Option.getD_some]
  rw [if_pos hne]

/-- Instance of C10: `APP_NAME` bound to `override`, file value `demo`. -/
theorem get_prefers_environment_witness :
    get (fun k => if k = "APP_NAME".toList then some "override".toList else none)
      "APP_NAME".toList "demo".toList = "override".toList :=
  get_prefers_environment
    (fun k => if k = "APP_NAME".toList then some "override".toList else none)
    "APP_NAME".toList "demo".toList "override".toList (by decide) (by decide)

/-- C11: `get` returns the fallback both when the key is unset in the
environment and when it is set to the empty string, so the two environments
cannot be told apart through `get`; with no override the file value `demo` of
`APP_NAME` resolves to `demo`. -/
theorem get_empty_environment (env : Environ) (key fallback : GoString)
    (h : env key = none ∨ env key = some []) : get env key fallback = fallback := by
  unfold get Getenv
  rcases h with h | h
  · simp [h]
  · simp [h]

/-- Instance of C11: `APP_NAME` unset, and `APP_NAME` set to the empty string,
with the file value `demo`. -/
theorem get_empty_environment_witness :
    get (fun _ => none) "APP_NAME".toList "demo".toList = "demo".toList ∧
      get (fun k => if k = "APP_NAME".toList then some [] else none)
        "APP_NAME".toList "demo".toList = "demo".toList :=
  ⟨get_empty_environment (fun _ => none) "APP_NAME".toList "demo".toList (Or.inl rfl),
    get_empty_environment (fun k => if k = "APP_NAME".toList then some [] else none)
      "APP_NAME".toList "demo".toList (Or.inr (by decide))⟩

/-! ## Auxiliary facts about trimmed text -/

theorem TrimSpace_head_not_space (s : GoString) (c : Char) (rest : GoString)
    (h : TrimSpace s = c :: rest) : isSpace c = false := by
  unfold TrimSpace TrimRight TrimLeft at h
  obtain ⟨u, hu⟩ := List.rdropWhile_prefix isSpace (List.dropWhile isSpace s)
  rw [h] at hu
  have := List.head?_dropWhile_not isSpace s
  rw [← hu] at this
  simpa using this

theorem TrimSpace_last_not_space (s init : GoString) (d : Char)
    (h : TrimSpace s = init ++ [d]) : isSpace d = false := by
  unfold TrimSpace TrimRight at h
  have hne : List.rdropWhile isSpace (TrimLeft s) ≠ [] := by rw [h]; simp
  have := List.rdropWhile_last_not isSpace (TrimLeft s) hne
  simp only [h, List.getLast_concat] at this
  simpa using this

theorem TrimSpace_fixed (s rest init : GoString) (c d : Char) (h1 : s = c :: rest)
    (hc : isSpace c = false) (h2 : s = init ++ [d]) (hd : isSpace d = false) :
    TrimSpace s = s := by
  unfold TrimSpace
  have hl : TrimLeft s = s := by
    rw [h1]
    simp [TrimLeft, List.dropWhile_cons, hc]
  rw [hl, h2]
  unfold TrimRight
  exact List.rdropWhile_concat_neg isSpace init d (by simp [hd])

theorem TrimSpace_nil : TrimSpace [] = [] := rfl

theorem TrimSpace_idem (s : GoString) : TrimSpace (TrimSpace s) = TrimSpace s := by
  cases hs : TrimSpace s with
  | nil => rfl
  | cons c rest =>
    rcases List.eq_nil_or_concat (c :: rest) with h | ⟨init, d, h⟩
    · exact absurd h (by simp)
    · rw [List.concat_eq_append] at h
      exact TrimSpace_fixed (c :: rest) rest init c d rfl
        (TrimSpace_head_not_space s c rest hs) h
        (TrimSpace_last_not_space s init d (hs.trans h))

theorem mem_of_mem_TrimSpace (s : GoString) (c : Char) (h : c ∈ TrimSpace s) : c ∈ s := by
  obtain ⟨a, b, e, _, _⟩ := TrimSpace_decompose s
  rw [e]
  simp [h]

theorem head_not_space_of_trimmed (k : GoString) (hk : TrimSpace k = k) (hne : k ≠ []) :
    ∃ c rest, k = c :: rest ∧ isSpace c = false := by
  cases k with
  | nil => exact absurd rfl hne
  | cons c rest => exact ⟨c, rest, rfl, TrimSpace_head_not_space _ c rest hk⟩

theorem last_not_space_of_trimmed (k : GoString) (hk : TrimSpace k = k) (hne : k ≠ []) :
    ∃ init d, k = init ++ [d] ∧ isSpace d = false := by
  rcases List.eq_nil_or_concat k with h | ⟨init, d, h⟩
  · exact absurd h hne
  · rw [List.concat_eq_append] at h
    exact ⟨init, d, h, TrimSpace_last_not_space k init d (hk.trans h)⟩

/-- The trimmed form of a padded `key = value` line. -/
theorem TrimSpace_padded (k v w1 w2 w3 w4 : GoString)
    (hk : TrimSpace k = k) (hv : TrimSpace v = v) (hne : k ≠ [])
    (hw1 : ∀ c ∈ w1, isSpace c = true) (hw3 : ∀ c ∈ w3, isSpace c = true)
    (hw4 : ∀ c ∈ w4, isSpace c = true) :
    ∃ post, TrimSpace (w1 ++ k ++ w2 ++ ['='] ++ w3 ++ v ++ w4) = (k ++ w2) ++ '=' :: post ∧
      TrimSpace post = v := by
  obtain ⟨c, rest, hkc, hc⟩ := head_not_space_of_trimmed k hk hne
  by_cases hvn : v = []
  · refine ⟨[], ?_, by rw [hvn]; rfl⟩
    have e : w1 ++ k ++ w2 ++ ['='] ++ w3 ++ v ++ w4 =
        w1 ++ ((k ++ w2 ++ ['=']) ++ (w3 ++ w4)) := by
      rw [hvn]; simp
    rw [e, TrimSpace_append_left _ _ hw1, TrimSpace_append_right]
    · have := TrimSpace_fixed (k ++ w2 ++ ['=']) (rest ++ w2 ++ ['=']) (k ++ w2) c '='
        (by rw [hkc]; simp) hc rfl isSpace_eq
      rw [this]
    · intro x hx
      rcases List.mem_append.mp hx with h | h
      · exact hw3 x h
      · exact hw4 x h
  · obtain ⟨init, d, hvd, hd⟩ := last_not_space_of_trimmed v hv hvn
    refine ⟨w3 ++ v, ?_, by rw [TrimSpace_append_left _ _ hw3, hv]⟩
    have e : w1 ++ k ++ w2 ++ ['='] ++ w3 ++ v ++ w4 =
        w1 ++ ((k ++ w2 ++ '=' :: (w3 ++ v)) ++ w4) := by simp
    rw [e, TrimSpace_append_left _ _ hw1, TrimSpace_append_right _ _ hw4]
    have := TrimSpace_fixed (k ++ w2 ++ '=' :: (w3 ++ v)) (rest ++ w2 ++ '=' :: (w3 ++ v))
      (k ++ w2 ++ '=' :: (w3 ++ init)) c d (by rw [hkc]; simp) hc
      (by conv_lhs => rw [hvd]
          simp) hd
    rw [this]

/-- The value of `parse` on a padded `key = value` line. -/
theorem parse_padded (k v w1 w2 w3 w4 : GoString)
    (hk : TrimSpace k = k) (hv : TrimSpace v = v) (hne : k ≠ [])
    (hc : k.head? ≠ some '#') (heq : '=' ∉ k)
    (hw1 : ∀ c ∈ w1, isSpace c = true) (hw2 : ∀ c ∈ w2, isSpace c = true)
    (hw3 : ∀ c ∈ w3, isSpace c = true) (hw4 : ∀ c ∈ w4, isSpace c = true) :
    parse (w1 ++ k ++ w2 ++ ['='] ++ w3 ++ v ++ w4) = (k, v, none) := by
  obtain ⟨post, e, hpost⟩ := TrimSpace_padded k v w1 w2 w3 w4 hk hv hne hw1 hw3 hw4
  have hhead : (TrimSpace (w1 ++ k ++ w2 ++ ['='] ++ w3 ++ v ++ w4)).head? ≠ some '#' := by
    rw [e]
    cases k with
    | nil => exact absurd rfl hne
    | cons c rest => simpa using hc
  have hpre : '=' ∉ k ++ w2 := by
    simp only [List.mem_append, not_or]
    refine ⟨heq, fun h => ?_⟩
    have := hw2 _ h
    rw [isSpace_eq] at this
    exact Bool.noConfusion this
  rw [parse_of_trim_split _ (k ++ w2) post hhead e hpre, TrimSpace_append_right k w2 hw2, hk,
    hpost]

/-- C15: white space around the key and around the value is trimmed: for a key
`k` and a value `v` without leading or trailing white space, `k` non-empty, not
starting with `#` and free of `=`, and white-space strings `w1` to `w4`,
`parse (w1 + k + w2 + "=" + w3 + v + w4)` is `(k, v)` without error, the same as
`parse (k + "=" + v)`. -/
theorem parse_trims_padding (k v w1 w2 w3 w4 : GoString)
    (hk : TrimSpace k = k) (hv : TrimSpace v = v) (hne : k ≠ [])
    (hc : k.head? ≠ some '#') (heq : '=' ∉ k)
    (hw1 : ∀ c ∈ w1, isSpace c = true) (hw2 : ∀ c ∈ w2, isSpace c = true)
    (hw3 : ∀ c ∈ w3, isSpace c = true) (hw4 : ∀ c ∈ w4, isSpace c = true) :
    parse (w1 ++ k ++ w2 ++ ['='] ++ w3 ++ v ++ w4) = (k, v, none) ∧
      parse (w1 ++ k ++ w2 ++ ['='] ++ w3 ++ v ++ w4) = parse (k ++ ['='] ++ v) := by
  have h1 := parse_padded k v w1 w2 w3 w4 hk hv hne hc heq hw1 hw2 hw3 hw4
  have h2 := parse_padded k v [] [] [] [] hk hv hne hc heq (by simp) (by simp) (by simp)
    (by simp)
  simp only [List.nil_append, List.append_nil] at h2
  exact ⟨h1, h1.trans h2.symm⟩

/-- Instance of C15: key `APP NAME`, value `my demo`, padded with spaces and
tabs. -/
theorem parse_trims_padding_witness :
    parse (" ".toList ++ "APP NAME".toList ++ [Char.ofNat 9, ' '] ++ ['='] ++ "  ".toList ++
        "my demo".toList ++ [' ', Char.ofNat 9]) = ("APP NAME".toList, "my demo".toList, none) ∧
      parse (" ".toList ++ "APP NAME".toList ++ [Char.ofNat 9, ' '] ++ ['='] ++ "  ".toList ++
        "my demo".toList ++ [' ', Char.ofNat 9]) =
        parse ("APP NAME".toList ++ ['='] ++ "my demo".toList) :=
  parse_trims_padding "APP NAME".toList "my demo".toList " ".toList [Char.ofNat 9, ' ']
    "  ".toList [' ', Char.ofNat 9] (by decide) (by decide) (by decide) (by decide) (by decide)
    (by decide) (by decide) (by decide) (by decide)

/-! ## Auxiliary facts about what `parse` and `read` can produce -/

/-- The shapes of the result of `parse`: nothing extracted, or the trimmed
line cut at its first `=`. -/
theorem parse_cases (line : GoString) :
    ((parse line).1 = [] ∧ (parse line).2.1 = []) ∨
      ∃ pre post, TrimSpace line = pre ++ '=' :: post ∧ '=' ∉ pre ∧
        (TrimSpace line).head? ≠ some '#' ∧
        parse line = (TrimSpace pre, TrimSpace post, none) := by
  by_cases hb : TrimSpace line = [] ∨ (TrimSpace line).head? = some '#'
  · left
    rw [parse_blank line hb]
    exact ⟨rfl, rfl⟩
  · have hc : (TrimSpace line).head? ≠ some '#' := fun h => hb (Or.inr h)
    by_cases heq : '=' ∈ TrimSpace line
    · right
      obtain ⟨pre, post, e, hpre⟩ := split_first (TrimSpace line) '=' heq
      exact ⟨pre, post, e, hpre, hc, parse_of_trim_split line pre post hc e hpre⟩
    · left
      have hlen : ¬ (TrimSpace line).length = 0 := fun h => hb (Or.inl (List.length_eq_zero.mp h))
      unfold parse
      simp only []
      rw [if_neg hlen, if_neg hc, if_pos ((Index_eq_neg_one_iff _ _).mpr heq)]
      exact ⟨rfl, rfl⟩

theorem parse_good (line : GoString) :
    TrimSpace (parse line).1 = (parse line).1 ∧ TrimSpace (parse line).2.1 = (parse line).2.1 ∧
      '=' ∉ (parse line).1 ∧ (parse line).1.head? ≠ some '#' := by
  rcases parse_cases line with ⟨h1, h2⟩ | ⟨pre, post, e, hpre, hc, hp⟩
  · rw [h1, h2]
    exact ⟨rfl, rfl, by simp, by simp⟩
  · rw [hp]
    refine ⟨TrimSpace_idem pre, TrimSpace_idem post,
      fun h => hpre (mem_of_mem_TrimSpace pre '=' h), ?_⟩
    simp only []
    cases pre with
    | nil => simp [TrimSpace_nil]
    | cons c0 rest =>
      have hc0 : isSpace c0 = false :=
        TrimSpace_head_not_space line c0 (rest ++ '=' :: post) (by rw [e]; rfl)
      have hne : c0 ≠ '#' := by
        intro h
        apply hc
        rw [e, h]
        rfl
      have hl : TrimLeft (c0 :: rest) = c0 :: rest := by
        simp [TrimLeft, List.dropWhile_cons, hc0]
      unfold TrimSpace
      rw [hl]
      obtain ⟨u, hu⟩ := List.rdropWhile_prefix isSpace (c0 :: rest)
      unfold TrimRight
      cases ht : List.rdropWhile isSpace (c0 :: rest) with
      | nil => simp
      | cons c r =>
        rw [ht] at hu
        have : c = c0 := by
          have := congrArg List.head? hu
          simpa using this
        rw [this]
        simpa using hne

theorem mem_mapSet (m : VariableMap) (k v : GoString) (p : GoString × GoString)
    (h : p ∈ mapSet m k v) : p = (k, v) ∨ p ∈ m := by
  induction m with
  | nil => simpa [mapSet] using h
  | cons q rest ih =>
    obtain ⟨k0, v0⟩ := q
    by_cases h0 : k0 = k
    · simp only [mapSet, h0, if_true, List.mem_cons] at h
      rcases h with h | h
      · exact Or.inl h
      · exact Or.inr (List.mem_cons_of_mem _ h)
    · simp only [mapSet, h0, if_false, List.mem_cons] at h
      rcases h with h | h
      · exact Or.inr (by rw [h]; exact List.mem_cons_self _ _)
      · rcases ih h with h2 | h2
        · exact Or.inl h2
        · exact Or.inr (List.mem_cons_of_mem _ h2)

/-- A property of the non-empty keys and their values that `parse` guarantees
holds of every entry of the map accumulated by the loop of `read`. -/
theorem foldl_loopStep_inv (P : GoString × GoString → Prop)
    (hP : ∀ l, (parse l).1 ≠ [] → P ((parse l).1, (parse l).2.1)) (lines : List GoString) :
    ∀ items : VariableMap, (∀ p ∈ items, P p) → ∀ p ∈ lines.foldl loopStep items, P p := by
  induction lines with
  | nil => intro items h; simpa using h
  | cons l rest ih =>
    intro items h
    rw [List.foldl_cons]
    apply ih
    intro p hp
    unfold loopStep at hp
    by_cases hk : (parse l).1 = []
    · rw [if_neg (by simp [hk])] at hp
      exact h p hp
    · rw [if_pos hk] at hp
      rcases mem_mapSet _ _ _ _ hp with h2 | h2
      · rw [h2]; exact hP l hk
      · exact h p h2

/-- A successful `read` has parsed every line and returns the map of the
loop. -/
theorem read_eq_some (file : Scanner) (m : VariableMap) (h : read file = (some m, none)) :
    (∀ l ∈ file.lines, (parse l).2.2 = none) ∧ file.err = none ∧
      m = file.lines.foldl loopStep [] := by
  unfold read at h
  rcases first_malformed file.lines with hok | ⟨pre, l, post, e, hl, hpre, he⟩
  · rw [scanLoop_all_ok _ [] hok] at h
    simp only [] at h
    cases hse : file.err with
    | some e => rw [hse] at h; simp at h
    | none =>
      rw [hse] at h
      simp only [Prod.mk.injEq, Option.some.injEq, and_true] at h
      exact ⟨hok, rfl, h.symm⟩
  · rw [hl, scanLoop_first_malformed pre post l e [] hpre he] at h
    simp at h

/-! ## More on the line parser and the variable loader -/

/-- C18: in the map returned by a successful `read`, every key is non-empty,
contains no `=`, does not start with `#` and has no leading or trailing white
space, and every value has no leading or trailing white space; the lines
`=value` and ` = value`, whose key part is empty, produce no entry and no
error. -/
theorem read_map_invariant (file : Scanner) (m : VariableMap)
    (h : read file = (some m, none)) :
    (∀ k v, (k, v) ∈ m →
      k ≠ [] ∧ '=' ∉ k ∧ k.head? ≠ some '#' ∧ TrimSpace k = k ∧ TrimSpace v = v) ∧
    read ⟨["=value".toList], none⟩ = (some [], none) ∧
    read ⟨[" = value".toList], none⟩ = (some [], none) := by
  refine ⟨?_, by decide, by decide⟩
  obtain ⟨_, _, hm⟩ := read_eq_some file m h
  intro k v hkv
  rw [hm] at hkv
  exact foldl_loopStep_inv
    (fun p => p.1 ≠ [] ∧ '=' ∉ p.1 ∧ p.1.head? ≠ some '#' ∧ TrimSpace p.1 = p.1 ∧
      TrimSpace p.2 = p.2)
    (fun l hl => ⟨hl, (parse_good l).2.2.1, (parse_good l).2.2.2, (parse_good l).1,
      (parse_good l).2.1⟩)
    file.lines [] (by simp) (k, v) hkv

/-- Instance of C18 at the lines ` A B = x y `, `=value`. -/
theorem read_map_invariant_witness :
    read ⟨[" A B = x y ".toList, "=value".toList], none⟩ =
        (some [("A B".toList, "x y".toList)], none) ∧
      ((∀ k v, (k, v) ∈ [("A B".toList, "x y".toList)] →
        k ≠ [] ∧ '=' ∉ k ∧ k.head? ≠ some '#' ∧ TrimSpace k = k ∧ TrimSpace v = v) ∧
      read ⟨["=value".toList], none⟩ = (some [], none) ∧
      read ⟨[" = value".toList], none⟩ = (some [], none)) :=
  ⟨by decide,
    read_map_invariant ⟨[" A B = x y ".toList, "=value".toList], none⟩
      [("A B".toList, "x y".toList)] (by decide)⟩

theorem count_hash_spaces (w : GoString) (h : ∀ c ∈ w, isSpace c = true) :
    w.count '#' = 0 := by
  rw [List.count_eq_zero]
  intro hm
  have := h _ hm
  exact absurd this (by decide)

/-- C19: a `#` is a comment marker only as the first non-blank character: on a
line whose trimmed form does not start with `#` and contains `=`, `parse`
succeeds and every `#` of the line is kept, in the key or in the value (the
key and the value together hold as many `#` as the line). -/
theorem parse_keeps_later_hash (line : GoString)
    (hc : (TrimSpace line).head? ≠ some '#') (heq : '=' ∈ TrimSpace line) :
    (parse line).2.2 = none ∧
      (parse line).1.count '#' + (parse line).2.1.count '#' = line.count '#' := by
  obtain ⟨pre, post, e, hpre⟩ := split_first (TrimSpace line) '=' heq
  have hp := parse_of_trim_split line pre post hc e hpre
  rw [hp]
  refine ⟨rfl, ?_⟩
  simp only []
  obtain ⟨a, b, hl, ha, hb⟩ := TrimSpace_decompose line
  obtain ⟨a1, b1, hl1, ha1, hb1⟩ := TrimSpace_decompose pre
  obtain ⟨a2, b2, hl2, ha2, hb2⟩ := TrimSpace_decompose post
  have c0 := congrArg (List.count '#') hl
  have c1 := congrArg (List.count '#') hl1
  have c2 := congrArg (List.count '#') hl2
  have c3 := congrArg (List.count '#') e
  have hne : ('=' == '#') = false := by decide
  simp only [List.count_append, List.count_cons, hne, count_hash_spaces a ha,
    count_hash_spaces b hb, count_hash_spaces a1 ha1, count_hash_spaces b1 hb1,
    count_hash_spaces a2 ha2, count_hash_spaces b2 hb2] at c0 c1 c2 c3
  simp only [Bool.false_eq_true, if_false] at c3
  omega

/-- Instance of C19 at the lines `PORT=8080 # http` and `A#B=1`. -/
theorem parse_keeps_later_hash_witness :
    parse "PORT=8080 # http".toList = ("PORT".toList, "8080 # http".toList, none) ∧
      parse "A#B=1".toList = ("A#B".toList, "1".toList, none) ∧
      ((parse "PORT=8080 # http".toList).2.2 = none ∧
        (parse "PORT=8080 # http".toList).1.count '#' +
          (parse "PORT=8080 # http".toList).2.1.count '#' =
          "PORT=8080 # http".toList.count '#') :=
  ⟨by decide, by decide,
    parse_keeps_later_hash "PORT=8080 # http".toList (by decide) (by decide)⟩

/-! ## The scanner and its buffer -/

theorem rawLines_single (l : GoString) (hn : Char.ofNat 10 ∉ l) (hne : l ≠ []) :
    rawLines l = [l] := by
  induction l with
  | nil => exact absurd rfl hne
  | cons c rest ih =>
    have hc : ¬ c = Char.ofNat 10 := fun h => hn (by rw [h]; exact List.mem_cons_self _ _)
    have hrest : Char.ofNat 10 ∉ rest := fun h => hn (List.mem_cons_of_mem _ h)
    rw [rawLines, if_neg hc]
    cases rest with
    | nil => rfl
    | cons d rest2 => rw [ih hrest (by simp)]

theorem byteLen_append (a b : GoString) : byteLen (a ++ b) = byteLen a + byteLen b := by
  simp [byteLen]

theorem byteLen_replicate_x (n : Nat) : byteLen (List.replicate n 'x') = n := by
  have h : Char.utf8Size 'x' = 1 := by decide
  simp [byteLen, List.map_replicate, List.sum_replicate, h]

theorem scanTokens_all_fit (readErr : Option GoError) (segs : List GoString)
    (h : ∀ seg ∈ segs, byteLen seg < MaxScanTokenSize) :
    scanTokens readErr segs = ⟨segs.map dropCR, readErr⟩ := by
  induction segs with
  | nil => rfl
  | cons seg rest ih =>
    have h1 : ¬ MaxScanTokenSize ≤ byteLen seg := by
      have := h seg (List.mem_cons_self _ _)
      omega
    rw [scanTokens, if_neg h1, ih (fun s hs => h s (List.mem_cons_of_mem _ hs))]
    rfl

theorem scanTokens_too_long (readErr : Option GoError) (pre post : List GoString)
    (seg : GoString) (h : ∀ s ∈ pre, byteLen s < MaxScanTokenSize)
    (hseg : MaxScanTokenSize ≤ byteLen seg) :
    scanTokens readErr (pre ++ seg :: post) = ⟨pre.map dropCR, some ErrTooLong⟩ := by
  induction pre with
  | nil =>
    rw [List.nil_append, scanTokens, if_pos hseg]
    rfl
  | cons s rest ih =>
    have h1 : ¬ MaxScanTokenSize ≤ byteLen s := by
      have := h s (List.mem_cons_self _ _)
      omega
    rw [List.cons_append, scanTokens, if_neg h1,
      ih (fun s2 hs => h s2 (List.mem_cons_of_mem _ hs))]
    rfl

theorem mem_TrimSpace_of_mem_eq (line : GoString) (h : '=' ∈ line) : '=' ∈ TrimSpace line := by
  obtain ⟨a, b, e, ha, hb⟩ := TrimSpace_decompose line
  rw [e] at h
  rcases List.mem_append.mp h with h1 | h1
  · rcases List.mem_append.mp h1 with h2 | h2
    · have := ha _ h2
      rw [isSpace_eq] at this
      exact Bool.noConfusion this
    · exact h2
  · have := hb _ h1
    rw [isSpace_eq] at this
    exact Bool.noConfusion this

theorem parse_no_error_of_mem_eq (line : GoString) (h : '=' ∈ line) :
    (parse line).2.2 = none := by
  by_cases hb : TrimSpace line = [] ∨ (TrimSpace line).head? = some '#'
  · rw [parse_blank line hb]
  · obtain ⟨pre, post, e, hpre⟩ :=
      split_first (TrimSpace line) '=' (mem_TrimSpace_of_mem_eq line h)
    rw [parse_of_trim_split line pre post (fun hc => hb (Or.inr hc)) e hpre]

theorem read_scanner_error (lines : List GoString) (e : GoError)
    (h : ∀ l ∈ lines, (parse l).2.2 = none) : read ⟨lines, some e⟩ = (none, some e) := by
  unfold read
  simp only []
  rw [scanLoop_all_ok lines [] h]

/-- What the scanner and `parse` do with the single line `A=` followed by `n`
letters `x`, when that line does not fit in the buffer of the scanner. -/
theorem long_line_facts (n : Nat) (hn : MaxScanTokenSize ≤ n + 2) :
    byteLen ("A=".toList ++ List.replicate n 'x') = n + 2 ∧
      rawLines ("A=".toList ++ List.replicate n 'x') =
        ["A=".toList ++ List.replicate n 'x'] ∧
      (parse (dropCR ("A=".toList ++ List.replicate n 'x'))).2.2 = none ∧
      (parse ("A=".toList ++ List.replicate n 'x')).2.2 = none ∧
      read (NewScanner ⟨"A=".toList ++ List.replicate n 'x', none⟩) =
        (none, some ErrTooLong) := by
  have hmem : ∀ c, c ∈ "A=".toList ++ List.replicate n 'x' → c = 'A' ∨ c = '=' ∨ c = 'x' := by
    intro c h
    rcases List.mem_append.mp h with h1 | h1
    · have h2 : c ∈ ['A', '='] := h1
      have h3 : c = 'A' ∨ c = '=' := by simpa using h2
      tauto
    · exact Or.inr (Or.inr (List.eq_of_mem_replicate h1))
  have hlen : byteLen ("A=".toList ++ List.replicate n 'x') = n + 2 := by
    rw [byteLen_append, byteLen_replicate_x]
    have : byteLen "A=".toList = 2 := by decide
    omega
  have hraw : rawLines ("A=".toList ++ List.replicate n 'x') =
      ["A=".toList ++ List.replicate n 'x'] := by
    apply rawLines_single
    · intro h
      rcases hmem _ h with h1 | h1 | h1
      · exact absurd h1 (by decide)
      · exact absurd h1 (by decide)
      · exact absurd h1 (by decide)
    · intro h
      have := congrArg List.length h
      simp at this
  have hcr : dropCR ("A=".toList ++ List.replicate n 'x') =
      "A=".toList ++ List.replicate n 'x' := by
    unfold dropCR
    rw [if_neg]
    intro h
    rcases hmem _ (List.mem_of_mem_getLast? h) with h1 | h1 | h1
    · exact absurd h1 (by decide)
    · exact absurd h1 (by decide)
    · exact absurd h1 (by decide)
  have hparse : (parse ("A=".toList ++ List.replicate n 'x')).2.2 = none := by
    apply parse_no_error_of_mem_eq
    apply List.mem_append_left
    decide
  refine ⟨hlen, hraw, by rw [hcr]; exact hparse, hparse, ?_⟩
  unfold NewScanner
  simp only []
  have hs := scanTokens_too_long none [] [] ("A=".toList ++ List.replicate n 'x')
    (fun s hs => absurd hs (List.not_mem_nil s)) (by rw [hlen]; exact hn)
  rw [List.nil_append] at hs
  rw [hraw, hs]
  rfl

/-- C17 as stated fails: the input made of the single line `A=` followed by
65536 letters `x` (65538 bytes) parses without error as a line, yet `read`
over the scanner of that input returns no map and the error
`bufio.ErrTooLong`. -/
theorem read_line_length_counterexample :
    byteLen ("A=".toList ++ List.replicate 65536 'x') = 65536 + 2 ∧
      rawLines ("A=".toList ++ List.replicate 65536 'x') =
        ["A=".toList ++ List.replicate 65536 'x'] ∧
      (parse (dropCR ("A=".toList ++ List.replicate 65536 'x'))).2.2 = none ∧
      (parse ("A=".toList ++ List.replicate 65536 'x')).2.2 = none ∧
      read (NewScanner ⟨"A=".toList ++ List.replicate 65536 'x', none⟩) =
        (none, some ErrTooLong) :=
  long_line_facts 65536 (by decide)

/-- C17, amended: `read` enforces the line limit of the scanner it creates.
The length of a line is counted in bytes up to its newline, the newline
excluded and a carriage return before the newline included.  For an input that
its reader delivers to the end, whose lines are all shorter than
`MaxScanTokenSize` (65536) bytes and all parse without error, `read` returns
the completed map and no error; and as soon as a line of 65536 bytes or more
is reached, the lines before it being shorter and parsing without error,
`read` returns no map and the error `bufio.ErrTooLong`. -/
theorem read_within_line_limit (content : GoString) :
    ((∀ seg ∈ rawLines content, byteLen seg < MaxScanTokenSize) →
      (∀ seg ∈ rawLines content, (parse (dropCR seg)).2.2 = none) →
      read (NewScanner ⟨content, none⟩) =
        (some (((rawLines content).map dropCR).foldl loopStep []), none)) ∧
    (∀ (re : Option GoError) (pre post : List GoString) (seg : GoString),
      rawLines content = pre ++ seg :: post →
      (∀ s ∈ pre, byteLen s < MaxScanTokenSize ∧ (parse (dropCR s)).2.2 = none) →
      MaxScanTokenSize ≤ byteLen seg →
      read (NewScanner ⟨content, re⟩) = (none, some ErrTooLong)) := by
  constructor
  · intro hfit hparse
    unfold NewScanner
    simp only []
    rw [scanTokens_all_fit none _ hfit]
    apply read_all_ok
    intro l hl
    obtain ⟨seg, hseg, e⟩ := List.mem_map.mp hl
    rw [← e]
    exact hparse seg hseg
  · intro re pre post seg hraw hpre hseg
    unfold NewScanner
    simp only []
    rw [hraw, scanTokens_too_long re pre post seg (fun s hs => (hpre s hs).1) hseg]
    apply read_scanner_error
    intro l hl
    obtain ⟨s, hs, e⟩ := List.mem_map.mp hl
    rw [← e]
    exact (hpre s hs).2

/-! ## Auxiliary facts about `load` and the loop of `Feed` -/

theorem Feed_of_load_error (fs : FileSystem) (env : Environ) (tbl : Char → Char)
    (range : VariableMap → List (GoString × GoString)) (path : GoString)
    (vals : Option VariableMap) (e : GoError) (h : load fs path = (vals, some e)) :
    Feed fs env tbl range path = (none, some e) := by
  unfold Feed
  rw [h]

theorem Feed_of_load_ok (fs : FileSystem) (env : Environ) (tbl : Char → Char)
    (range : VariableMap → List (GoString × GoString)) (path : GoString)
    (vals : Option VariableMap) (h : load fs path = (vals, none)) :
    Feed fs env tbl range path = (some (feedLoop env tbl [] (range (vals.getD []))), none) := by
  unfold Feed
  rw [h]

/-- A successful `load` returns what `read` returned on the scanner of the
opened file. -/
theorem load_eq_some (fs : FileSystem) (path : GoString) (values : VariableMap)
    (h : load fs path = (some values, none)) :
    ∃ file, read (NewScanner file) = (some values, none) := by
  unfold load at h
  cases ha : fs.Abs path with
  | error e => rw [ha] at h; simp at h
  | ok p =>
    rw [ha] at h
    simp only [] at h
    cases ho : fs.Open (fs.Clean p) with
    | error e => rw [ho] at h; simp at h
    | ok file =>
      rw [ho] at h
      simp only [] at h
      refine ⟨file, ?_⟩
      rcases hr : read (NewScanner file) with ⟨vals, err⟩
      rw [hr] at h
      cases err with
      | some e => simp at h
      | none =>
        simp only [Prod.mk.injEq, and_true] at h
        rw [h]

theorem nodup_mapKeys_mapSet (m : VariableMap) (k v : GoString) (h : (mapKeys m).Nodup) :
    (mapKeys (mapSet m k v)).Nodup := by
  induction m with
  | nil => simp [mapSet, mapKeys]
  | cons p rest ih =>
    obtain ⟨k0, v0⟩ := p
    have h2 : k0 ∉ mapKeys rest ∧ (mapKeys rest).Nodup := by
      simpa [mapKeys] using h
    by_cases h0 : k0 = k
    · subst h0
      simpa [mapSet, mapKeys] using h
    · have hmem : k0 ∉ mapKeys (mapSet rest k v) := by
        rw [mem_mapKeys_mapSet]
        intro hk
        rcases hk with hk | hk
        · exact h0 hk
        · exact h2.1 hk
      have : mapKeys (mapSet ((k0, v0) :: rest) k v) = k0 :: mapKeys (mapSet rest k v) := by
        simp [mapSet, h0, mapKeys]
      rw [this]
      exact List.nodup_cons.mpr ⟨hmem, ih h2.2⟩

theorem nodup_foldl_loopStep (lines : List GoString) :
    ∀ items : VariableMap, (mapKeys items).Nodup →
      (mapKeys (lines.foldl loopStep items)).Nodup := by
  induction lines with
  | nil => intro items h; exact h
  | cons l rest ih =>
    intro items h
    rw [List.foldl_cons]
    apply ih
    unfold loopStep
    by_cases hk : (parse l).1 = []
    · rw [if_neg (by simp [hk])]
      exact h
    · rw [if_pos hk]
      exact nodup_mapKeys_mapSet _ _ _ h

/-- The keys of a map returned by `load` are pairwise distinct. -/
theorem load_nodup (fs : FileSystem) (path : GoString) (values : VariableMap)
    (h : load fs path = (some values, none)) : (mapKeys values).Nodup := by
  obtain ⟨file, hr⟩ := load_eq_some fs path values h
  obtain ⟨_, _, hm⟩ := read_eq_some _ values hr
  rw [hm]
  exact nodup_foldl_loopStep _ [] (by simp [mapKeys])

theorem feedLoop_append (env : Environ) (tbl : Char → Char)
    (xs ys : List (GoString × GoString)) :
    ∀ m : ResultMap, feedLoop env tbl m (xs ++ ys) = feedLoop env tbl (feedLoop env tbl m xs) ys := by
  induction xs with
  | nil => intro m; rfl
  | cons p rest ih =>
    intro m
    obtain ⟨k, v⟩ := p
    rw [List.cons_append, feedLoop, feedLoop, ih]

theorem nodup_feedLoop (env : Environ) (tbl : Char → Char)
    (entries : List (GoString × GoString)) :
    ∀ m : ResultMap, (mapKeys m).Nodup → (mapKeys (feedLoop env tbl m entries)).Nodup := by
  induction entries with
  | nil => intro m h; exact h
  | cons p rest ih =>
    intro m h
    obtain ⟨k, v⟩ := p
    rw [feedLoop]
    exact ih _ (nodup_mapKeys_mapSet _ _ _ h)

theorem mem_mapKeys_feedLoop (env : Environ) (tbl : Char → Char)
    (entries : List (GoString × GoString)) :
    ∀ (m : ResultMap) (n : GoString), n ∈ mapKeys (feedLoop env tbl m entries) ↔
      n ∈ mapKeys m ∨ ∃ p ∈ entries, standardize tbl p.1 = n := by
  induction entries with
  | nil => intro m n; simp [feedLoop]
  | cons p rest ih =>
    intro m n
    obtain ⟨k, v⟩ := p
    rw [feedLoop, ih, mem_mapKeys_mapSet]
    constructor
    · rintro ((h | h) | ⟨q, hq, hn⟩)
      · exact Or.inr ⟨(k, v), List.mem_cons_self _ _, h.symm⟩
      · exact Or.inl h
      · exact Or.inr ⟨q, List.mem_cons_of_mem _ hq, hn⟩
    · rintro (h | ⟨q, hq, hn⟩)
      · exact Or.inl (Or.inr h)
      · rcases List.mem_cons.mp hq with h2 | h2
        · subst h2
          exact Or.inl (Or.inl hn.symm)
        · exact Or.inr ⟨q, h2, hn⟩

/-- What the loop of `Feed` has stored once it has visited the entries: under
each normalised key the resolved value of the last entry visited that carries
it. -/
theorem mapGet_feedLoop (env : Environ) (tbl : Char → Char)
    (entries : List (GoString × GoString)) (n w : GoString) :
    mapGet (feedLoop env tbl [] entries) n = some w ↔
      ∃ pre k v post, entries = pre ++ (k, v) :: post ∧ standardize tbl k = n ∧
        get env k v = w ∧ ∀ p ∈ post, standardize tbl p.1 ≠ n := by
  induction entries using List.reverseRecOn with
  | nil => simp [feedLoop, mapGet]
  | append_singleton init p ih =>
    obtain ⟨k1, v1⟩ := p
    rw [feedLoop_append]
    simp only [feedLoop]
    rw [mapGet_mapSet]
    by_cases hk : standardize tbl k1 = n
    · rw [if_pos hk]
      constructor
      · intro hv
        exact ⟨init, k1, v1, [], rfl, hk, by simpa using hv, by simp⟩
      · rintro ⟨pre, k, v, post, e, _, hv0, hpost⟩
        rcases concat_eq_split init pre post (k1, v1) (k, v) e with ⟨_, _, h3⟩ | ⟨post2, h1, _⟩
        · have hk2 : k1 = k := congrArg Prod.fst h3
          have hv2 : v1 = v := congrArg Prod.snd h3
          rw [hk2, hv2, hv0]
        · exact absurd hk (hpost (k1, v1) (by simp [h1]))
    · rw [if_neg hk, ih]
      constructor
      · rintro ⟨pre, k, v, post, e, hk0, hv0, hpost⟩
        refine ⟨pre, k, v, post ++ [(k1, v1)], by simp [e], hk0, hv0, ?_⟩
        intro q hq
        rcases List.mem_append.mp hq with h3 | h3
        · exact hpost q h3
        · have : q = (k1, v1) := by simpa using h3
          rw [this]
          exact hk
      · rintro ⟨pre, k, v, post, e, hk0, hv0, hpost⟩
        rcases concat_eq_split init pre post (k1, v1) (k, v) e with ⟨_, _, h3⟩ | ⟨post2, h1, h2⟩
        · have hk2 : k1 = k := congrArg Prod.fst h3
          exact absurd (hk2 ▸ hk0) hk
        · refine ⟨pre, k, v, post2, h2, hk0, hv0, ?_⟩
          intro q hq
          exact hpost q (by simp [h1, hq])

/-! ## The feeder -/

/-- C14: `Feed` fails exactly when `load` fails: an error of `load` is returned
unchanged together with no map, and when `load` succeeds `Feed` returns a map
and no error. -/
theorem Feed_fails_iff_load_fails (fs : FileSystem) (env : Environ) (tbl : Char → Char)
    (range : VariableMap → List (GoString × GoString)) (path : GoString) :
    ((Feed fs env tbl range path).2 ≠ none ↔ (load fs path).2 ≠ none) ∧
    (∀ e, (load fs path).2 = some e → Feed fs env tbl range path = (none, some e)) ∧
    ((load fs path).2 = none → ∃ m, Feed fs env tbl range path = (some m, none)) := by
  rcases hl : load fs path with ⟨vals, err⟩
  cases err with
  | some e =>
    rw [Feed_of_load_error fs env tbl range path vals e hl]
    refine ⟨by simp, ?_, by simp⟩
    intro e2 h2
    simp only [Option.some.injEq] at h2
    rw [h2]
  | none =>
    rw [Feed_of_load_ok fs env tbl range path vals hl]
    exact ⟨by simp, by simp, fun _ => ⟨_, rfl⟩⟩

/-- Instance of C14: a file whose second line is malformed, and a path that
cannot be opened. -/
theorem Feed_fails_iff_load_fails_witness :
    Feed ⟨fun p => .ok p, fun p => p,
        fun _ => .ok ⟨['A', '=', '1', Char.ofNat 10, 'B'], none⟩⟩
      (fun _ => none) id id [] = (none, some ⟨"Invalid line: B".toList⟩) ∧
    Feed ⟨fun p => .ok p, fun p => p, fun _ => .error ⟨"no such file".toList⟩⟩
      (fun _ => none) id id [] = (none, some ⟨"no such file".toList⟩) :=
  ⟨(Feed_fails_iff_load_fails ⟨fun p => .ok p, fun p => p,
        fun _ => .ok ⟨['A', '=', '1', Char.ofNat 10, 'B'], none⟩⟩
      (fun _ => none) id id []).2.1 ⟨"Invalid line: B".toList⟩ (by decide),
    (Feed_fails_iff_load_fails ⟨fun p => .ok p, fun p => p,
        fun _ => .error ⟨"no such file".toList⟩⟩
      (fun _ => none) id id []).2.1 ⟨"no such file".toList⟩ (by decide)⟩

theorem mapGet_feedLoop_last (env : Environ) (tbl : Char → Char)
    (init : List (GoString × GoString)) (k v : GoString) :
    mapGet (feedLoop env tbl [] (init ++ [(k, v)])) (standardize tbl k) = some (get env k v) :=
  (mapGet_feedLoop env tbl (init ++ [(k, v)]) (standardize tbl k) (get env k v)).mpr
    ⟨init, k, v, [], rfl, rfl, rfl, by simp⟩

/-- An iteration order that visits a chosen entry last: the other entries
first, then the chosen one. -/
theorem perm_visit_last (m : List (GoString × GoString)) (p : GoString × GoString) :
    (m.filter (fun q => decide (q ≠ p)) ++ m.filter (fun q => !decide (q ≠ p))).Perm m :=
  List.filter_append_perm (fun q => decide (q ≠ p)) m

theorem visit_last_concat (m : List (GoString × GoString)) (p : GoString × GoString)
    (h : p ∈ m) :
    ∃ init, m.filter (fun q => decide (q ≠ p)) ++ m.filter (fun q => !decide (q ≠ p)) =
      init ++ [p] := by
  rcases List.eq_nil_or_concat (m.filter (fun q => !decide (q ≠ p))) with h0 | ⟨init, d, h0⟩
  · have : p ∈ m.filter (fun q => !decide (q ≠ p)) := by
      rw [List.mem_filter]
      exact ⟨h, by simp⟩
    rw [h0] at this
    exact absurd this (List.not_mem_nil p)
  · rw [List.concat_eq_append] at h0
    have hd : d ∈ m.filter (fun q => !decide (q ≠ p)) := by
      rw [h0]; simp
    have hdp : d = p := by
      have := (List.mem_filter.mp hd).2
      simpa using this
    rw [h0, hdp, ← List.append_assoc]
    exact ⟨_, rfl⟩

/-- C16: whatever the order in which the entries are visited, the value that
`Feed` stores under a normalised key `n` is `get k v` for the last entry
`(k, v)` visited with `standardize k = n`; hence, when two entries of the
loaded map standardize to the same key and resolve to different values, there
are two iteration orders for which `Feed` returns maps that differ at that
key, for the same file and environment. -/
theorem Feed_last_visited_wins (env : Environ) (tbl : Char → Char) :
    (∀ (entries : List (GoString × GoString)) (n w : GoString),
      mapGet (feedLoop env tbl [] entries) n = some w ↔
        ∃ pre k v post, entries = pre ++ (k, v) :: post ∧ standardize tbl k = n ∧
          get env k v = w ∧ ∀ p ∈ post, standardize tbl p.1 ≠ n) ∧
    (∀ (fs : FileSystem) (path : GoString) (values : VariableMap) (k1 v1 k2 v2 : GoString),
      load fs path = (some values, none) → (k1, v1) ∈ values → (k2, v2) ∈ values →
      standardize tbl k1 = standardize tbl k2 → get env k1 v1 ≠ get env k2 v2 →
      ∃ range1 range2 : VariableMap → List (GoString × GoString),
        (∀ m, (range1 m).Perm m) ∧ (∀ m, (range2 m).Perm m) ∧
        ∃ m1 m2, Feed fs env tbl range1 path = (some m1, none) ∧
          Feed fs env tbl range2 path = (some m2, none) ∧
          mapGet m1 (standardize tbl k1) = some (get env k1 v1) ∧
          mapGet m2 (standardize tbl k1) = some (get env k2 v2) ∧
          mapGet m1 (standardize tbl k1) ≠ mapGet m2 (standardize tbl k1)) := by
  refine ⟨mapGet_feedLoop env tbl, ?_⟩
  intro fs path values k1 v1 k2 v2 hload h1 h2 hstd hne
  refine ⟨fun m => m.filter (fun q => decide (q ≠ (k1, v1))) ++
      m.filter (fun q => !decide (q ≠ (k1, v1))),
    fun m => m.filter (fun q => decide (q ≠ (k2, v2))) ++
      m.filter (fun q => !decide (q ≠ (k2, v2))),
    fun m => perm_visit_last m (k1, v1), fun m => perm_visit_last m (k2, v2), ?_⟩
  have e1 := Feed_of_load_ok fs env tbl
    (fun m => m.filter (fun q => decide (q ≠ (k1, v1))) ++
      m.filter (fun q => !decide (q ≠ (k1, v1)))) path (some values) hload
  have e2 := Feed_of_load_ok fs env tbl
    (fun m => m.filter (fun q => decide (q ≠ (k2, v2))) ++
      m.filter (fun q => !decide (q ≠ (k2, v2)))) path (some values) hload
  simp only [Option.getD_some] at e1 e2
  obtain ⟨init1, hi1⟩ := visit_last_concat values (k1, v1) h1
  obtain ⟨init2, hi2⟩ := visit_last_concat values (k2, v2) h2
  rw [hi1] at e1
  rw [hi2] at e2
  have g1 := mapGet_feedLoop_last env tbl init1 k1 v1
  have g2 := mapGet_feedLoop_last env tbl init2 k2 v2
  rw [← hstd] at g2
  refine ⟨_, _, e1, e2, g1, g2, ?_⟩
  rw [g1, g2]
  intro h
  exact hne (Option.some.inj h)

/-- Instance of C16: the file `a.b=1`, `a_b=2` with an empty environment. -/
theorem Feed_last_visited_wins_witness :
    ∃ range1 range2 : VariableMap → List (GoString × GoString),
      (∀ m, (range1 m).Perm m) ∧ (∀ m, (range2 m).Perm m) ∧
      ∃ m1 m2,
        Feed ⟨fun p => .ok p, fun p => p,
            fun _ => .ok ⟨['a', '.', 'b', '=', '1', Char.ofNat 10, 'a', '_', 'b', '=', '2'],
              none⟩⟩ (fun _ => none) id range1 [] = (some m1, none) ∧
        Feed ⟨fun p => .ok p, fun p => p,
            fun _ => .ok ⟨['a', '.', 'b', '=', '1', Char.ofNat 10, 'a', '_', 'b', '=', '2'],
              none⟩⟩ (fun _ => none) id range2 [] = (some m2, none) ∧
        mapGet m1 (standardize id "a.b".toList) = some (get (fun _ => none) "a.b".toList "1".toList) ∧
        mapGet m2 (standardize id "a.b".toList) = some (get (fun _ => none) "a_b".toList "2".toList) ∧
        mapGet m1 (standardize id "a.b".toList) ≠ mapGet m2 (standardize id "a.b".toList) :=
  (Feed_last_visited_wins (fun _ => none) id).2
    ⟨fun p => .ok p, fun p => p,
      fun _ => .ok ⟨['a', '.', 'b', '=', '1', Char.ofNat 10, 'a', '_', 'b', '=', '2'], none⟩⟩
    [] [("a.b".toList, "1".toList), ("a_b".toList, "2".toList)]
    "a.b".toList "1".toList "a_b".toList "2".toList
    (by decide) (by decide) (by decide) (by decide) (by decide)

theorem mem_mapKeys_of_mem (m : List (GoString × GoString)) (k v : GoString)
    (h : (k, v) ∈ m) : k ∈ mapKeys m :=
  List.mem_map.mpr ⟨(k, v), h, rfl⟩

theorem mem_mapKeys_perm (a b : List (GoString × GoString)) (h : a.Perm b) (k : GoString) :
    k ∈ mapKeys a ↔ k ∈ mapKeys b :=
  (h.map Prod.fst).mem_iff

/-- On a map with distinct keys on which `standardize` is injective, the loop
of `Feed` stores exactly the resolved value of each entry under its normalised
key, whatever the order of the visit. -/
theorem mapGet_feedLoop_injective (env : Environ) (tbl : Char → Char)
    (values order : List (GoString × GoString)) (hperm : order.Perm values)
    (hnd : (mapKeys values).Nodup)
    (hinj : ∀ k1 ∈ mapKeys values, ∀ k2 ∈ mapKeys values,
      standardize tbl k1 = standardize tbl k2 → k1 = k2) (n w : GoString) :
    mapGet (feedLoop env tbl [] order) n = some w ↔
      ∃ k v, (k, v) ∈ values ∧ standardize tbl k = n ∧ get env k v = w := by
  rw [mapGet_feedLoop]
  constructor
  · rintro ⟨pre, k, v, post, e, hk, hv, _⟩
    exact ⟨k, v, hperm.mem_iff.mp (by rw [e]; simp), hk, hv⟩
  · rintro ⟨k, v, hmem, hk, hv⟩
    obtain ⟨pre, post, e⟩ := List.append_of_mem (hperm.mem_iff.mpr hmem)
    refine ⟨pre, k, v, post, e, hk, hv, ?_⟩
    intro q hq hqn
    have hndo : (mapKeys order).Nodup := ((hperm.map Prod.fst).nodup_iff).mpr hnd
    have hqo : q ∈ order := by rw [e]; simp [hq]
    have hqk : q.1 = k := by
      apply hinj
      · exact (mem_mapKeys_perm order values hperm q.1).mp (List.mem_map.mpr ⟨q, hqo, rfl⟩)
      · exact mem_mapKeys_of_mem values k v hmem
      · rw [hqn, hk]
    rw [e] at hndo
    have hsplit : mapKeys (pre ++ (k, v) :: post) = mapKeys pre ++ k :: mapKeys post := by
      simp [mapKeys]
    rw [hsplit] at hndo
    have hnot : k ∉ mapKeys post := by
      have := (List.nodup_append.mp hndo).2.1
      exact (List.nodup_cons.mp this).1
    exact hnot (hqk ▸ List.mem_map.mpr ⟨q, hq, rfl⟩)

/-- C12: for a map `values` returned by `load` on whose keys `standardize` is
injective, and any environment and iteration order, `Feed` returns a map that
binds `n` to `w` exactly when some entry `(k, v)` of `values` has
`standardize k = n` and `get k v = w`, and that has no other key; the
environment is asked for the raw key `k`, not for `standardize k`. -/
theorem Feed_standardizes_and_resolves (fs : FileSystem) (env : Environ) (tbl : Char → Char)
    (range : VariableMap → List (GoString × GoString)) (path : GoString)
    (values : VariableMap) (hload : load fs path = (some values, none))
    (hinj : ∀ k1 ∈ mapKeys values, ∀ k2 ∈ mapKeys values,
      standardize tbl k1 = standardize tbl k2 → k1 = k2)
    (hrange : ∀ m, (range m).Perm m) :
    ∃ m, Feed fs env tbl range path = (some m, none) ∧
      (∀ n w, mapGet m n = some w ↔
        ∃ k v, (k, v) ∈ values ∧ standardize tbl k = n ∧ get env k v = w) ∧
      (∀ n, n ∈ mapKeys m ↔ ∃ k ∈ mapKeys values, standardize tbl k = n) := by
  have e := Feed_of_load_ok fs env tbl range path (some values) hload
  simp only [Option.getD_some] at e
  refine ⟨_, e, ?_, ?_⟩
  · intro n w
    exact mapGet_feedLoop_injective env tbl values (range values) (hrange values)
      (load_nodup fs path values hload) hinj n w
  · intro n
    rw [mem_mapKeys_feedLoop]
    constructor
    · rintro (h | ⟨q, hq, hn⟩)
      · exact absurd h (by simp [mapKeys])
      · exact ⟨q.1, (mem_mapKeys_perm _ _ (hrange values) q.1).mp
          (List.mem_map.mpr ⟨q, hq, rfl⟩), hn⟩
    · rintro ⟨k, hk, hn⟩
      obtain ⟨q, hq, hqk⟩ := List.mem_map.mp ((mem_mapKeys_perm _ _ (hrange values) k).mpr hk)
      exact Or.inr ⟨q, hq, by rw [hqk]; exact hn⟩

/-- Instance of C12: the file `APP_NAME=demo` with an environment that binds
only the name `app.name`: the binding has no effect. -/
theorem Feed_standardizes_and_resolves_witness :
    Feed ⟨fun p => .ok p, fun p => p, fun _ => .ok ⟨"APP_NAME=demo".toList, none⟩⟩
        (fun k => if k = "app.name".toList then some "other".toList else none) id id [] =
      (some [("app.name".toList, "demo".toList)], none) ∧
    ∃ m, Feed ⟨fun p => .ok p, fun p => p, fun _ => .ok ⟨"APP_NAME=demo".toList, none⟩⟩
        (fun k => if k = "app.name".toList then some "other".toList else none) id id [] =
        (some m, none) ∧
      (∀ n w, mapGet m n = some w ↔
        ∃ k v, (k, v) ∈ [("APP_NAME".toList, "demo".toList)] ∧ standardize id k = n ∧
          get (fun k => if k = "app.name".toList then some "other".toList else none) k v = w) ∧
      (∀ n, n ∈ mapKeys m ↔
        ∃ k ∈ mapKeys [("APP_NAME".toList, "demo".toList)], standardize id k = n) :=
  ⟨by decide,
    Feed_standardizes_and_resolves
      ⟨fun p => .ok p, fun p => p, fun _ => .ok ⟨"APP_NAME=demo".toList, none⟩⟩
      (fun k => if k = "app.name".toList then some "other".toList else none) id id []
      [("APP_NAME".toList, "demo".toList)] (by decide) (by decide) (fun _ => List.Perm.refl _)⟩

/-- C13: on success the map returned by `Feed` never has more keys than the map
returned by `load`, and it has as many exactly when no two distinct raw keys
standardize to the same normalised key. -/
theorem Feed_key_count (fs : FileSystem) (env : Environ) (tbl : Char → Char)
    (range : VariableMap → List (GoString × GoString)) (path : GoString)
    (values : VariableMap) (hload : load fs path = (some values, none))
    (hrange : ∀ m, (range m).Perm m) :
    ∃ m, Feed fs env tbl range path = (some m, none) ∧
      (mapKeys m).length ≤ (mapKeys values).length ∧
      ((mapKeys m).length = (mapKeys values).length ↔
        ∀ k1 ∈ mapKeys values, ∀ k2 ∈ mapKeys values,
          standardize tbl k1 = standardize tbl k2 → k1 = k2) := by
  have e := Feed_of_load_ok fs env tbl range path (some values) hload
  simp only [Option.getD_some] at e
  refine ⟨_, e, ?_⟩
  have hnd := load_nodup fs path values hload
  have hndm : (mapKeys (feedLoop env tbl [] (range values))).Nodup :=
    nodup_feedLoop env tbl (range values) [] (by simp [mapKeys])
  have himg : (mapKeys (feedLoop env tbl [] (range values))).toFinset =
      (mapKeys values).toFinset.image (standardize tbl) := by
    ext n
    rw [List.mem_toFinset, mem_mapKeys_feedLoop, Finset.mem_image]
    constructor
    · rintro (h | ⟨q, hq, hn⟩)
      · exact absurd h (by simp [mapKeys])
      · exact ⟨q.1, List.mem_toFinset.mpr ((mem_mapKeys_perm _ _ (hrange values) q.1).mp
          (List.mem_map.mpr ⟨q, hq, rfl⟩)), hn⟩
    · rintro ⟨k, hk, hn⟩
      obtain ⟨q, hq, hqk⟩ := List.mem_map.mp
        ((mem_mapKeys_perm _ _ (hrange values) k).mpr (List.mem_toFinset.mp hk))
      exact Or.inr ⟨q, hq, by rw [hqk]; exact hn⟩
  have hc1 := List.toFinset_card_of_nodup hndm
  have hc2 := List.toFinset_card_of_nodup hnd
  rw [← hc1, ← hc2, himg]
  refine ⟨Finset.card_image_le, ?_⟩
  rw [Finset.card_image_iff]
  constructor
  · intro h k1 hk1 k2 hk2 hs
    exact h (by simpa using hk1) (by simpa using hk2) hs
  · intro h k1 hk1 k2 hk2 hs
    exact h k1 (by simpa using hk1) k2 (by simpa using hk2) hs

/-- Instance of C13: the file `A=1`, `a=2`, `B=3`, whose raw keys `A` and `a`
collide, gives two keys out of three. -/
theorem Feed_key_count_witness :
    Feed ⟨fun p => .ok p, fun p => p, fun _ => .ok
        ⟨['A', '=', '1', Char.ofNat 10, 'a', '=', '2', Char.ofNat 10, 'B', '=', '3'], none⟩⟩
      (fun _ => none) id id [] =
      (some [("a".toList, "2".toList), ("b".toList, "3".toList)], none) ∧
    ∃ m, Feed ⟨fun p => .ok p, fun p => p, fun _ => .ok
        ⟨['A', '=', '1', Char.ofNat 10, 'a', '=', '2', Char.ofNat 10, 'B', '=', '3'], none⟩⟩
      (fun _ => none) id id [] = (some m, none) ∧
      (mapKeys m).length ≤
        (mapKeys [("A".toList, "1".toList), ("a".toList, "2".toList),
          ("B".toList, "3".toList)]).length ∧
      ((mapKeys m).length =
          (mapKeys [("A".toList, "1".toList), ("a".toList, "2".toList),
            ("B".toList, "3".toList)]).length ↔
        ∀ k1 ∈ mapKeys [("A".toList, "1".toList), ("a".toList, "2".toList),
            ("B".toList, "3".toList)],
          ∀ k2 ∈ mapKeys [("A".toList, "1".toList), ("a".toList, "2".toList),
            ("B".toList, "3".toList)],
          standardize id k1 = standardize id k2 → k1 = k2) :=
  ⟨by decide,
    Feed_key_count
      ⟨fun p => .ok p, fun p => p, fun _ => .ok
        ⟨['A', '=', '1', Char.ofNat 10, 'a', '=', '2', Char.ofNat 10, 'B', '=', '3'], none⟩⟩
      (fun _ => none) id id []
      [("A".toList, "1".toList), ("a".toList, "2".toList), ("B".toList, "3".toList)]
      (by decide) (fun _ => List.Perm.refl _)⟩

theorem parse_key_only (k : GoString) (hk : TrimSpace k = k) (hne : k ≠ [])
    (hc : k.head? ≠ some '#') (heq : '=' ∉ k) : parse (k ++ ['=']) = (k, [], none) := by
  have h := parse_padded k [] [] [] [] [] hk rfl hne hc heq (by simp) (by simp) (by simp)
    (by simp)
  simpa using h

theorem read_key_only (k : GoString) (hk : TrimSpace k = k) (hne : k ≠ [])
    (hc : k.head? ≠ some '#') (heq : '=' ∉ k) :
    read ⟨[k ++ ['=']], none⟩ = (some [(k, [])], none) := by
  have hp := parse_key_only k hk hne hc heq
  rw [read_all_ok [k ++ ['=']] (by intro l hl; rw [List.mem_singleton.mp hl, hp])]
  simp only [List.foldl_cons, List.foldl_nil, loopStep, hp]
  rw [if_pos hne]
  rfl

theorem load_of_scanner (fs : FileSystem) (path p : GoString) (file : File)
    (ha : fs.Abs path = .ok p) (ho : fs.Open (fs.Clean p) = .ok file) (values : VariableMap)
    (hr : read (NewScanner file) = (some values, none)) :
    load fs path = (some values, none) := by
  unfold load
  rw [ha]
  simp only []
  rw [ho]
  simp only []
  rw [hr]

/-! ## More on the scanner: what it delivers from an input -/

theorem rawLines_line (l rest : GoString) (hn : Char.ofNat 10 ∉ l) :
    rawLines (l ++ Char.ofNat 10 :: rest) = l :: rawLines rest := by
  induction l with
  | nil =>
    rw [List.nil_append, rawLines, if_pos rfl]
  | cons c l2 ih =>
    have hc : ¬ c = Char.ofNat 10 := fun h => hn (by rw [h]; exact List.mem_cons_self _ _)
    have hl2 : Char.ofNat 10 ∉ l2 := fun h => hn (List.mem_cons_of_mem _ h)
    rw [List.cons_append, rawLines, if_neg hc, ih hl2]

/-- Either every line fits in the buffer of the scanner, or there is a first
line that does not. -/
theorem first_too_long (segs : List GoString) :
    (∀ s ∈ segs, byteLen s < MaxScanTokenSize) ∨
      ∃ pre seg post, segs = pre ++ seg :: post ∧ (∀ s ∈ pre, byteLen s < MaxScanTokenSize) ∧
        MaxScanTokenSize ≤ byteLen seg := by
  induction segs with
  | nil => left; simp
  | cons s rest ih =>
    by_cases hs : MaxScanTokenSize ≤ byteLen s
    · exact Or.inr ⟨[], s, rest, rfl, by simp, hs⟩
    · have hs2 : byteLen s < MaxScanTokenSize := by omega
      rcases ih with h | ⟨pre, seg, post, h1, h2, h3⟩
      · left
        intro t ht
        rcases List.mem_cons.mp ht with h4 | h4
        · rw [h4]; exact hs2
        · exact h t h4
      · right
        refine ⟨s :: pre, seg, post, by simp [h1], ?_, h3⟩
        intro t ht
        rcases List.mem_cons.mp ht with h4 | h4
        · rw [h4]; exact hs2
        · exact h2 t h4

theorem scanTokens_append_fit (readErr : Option GoError) (pre rest : List GoString)
    (h : ∀ s ∈ pre, byteLen s < MaxScanTokenSize) :
    scanTokens readErr (pre ++ rest) =
      ⟨pre.map dropCR ++ (scanTokens readErr rest).lines, (scanTokens readErr rest).err⟩ := by
  induction pre with
  | nil => rfl
  | cons s pre2 ih =>
    have h1 : ¬ MaxScanTokenSize ≤ byteLen s := by
      have := h s (List.mem_cons_self _ _)
      omega
    rw [List.cons_append, scanTokens, if_neg h1,
      ih (fun s2 hs => h s2 (List.mem_cons_of_mem _ hs))]
    rfl

theorem TrimSpace_dropCR (l : GoString) : TrimSpace (dropCR l) = TrimSpace l := by
  unfold dropCR
  by_cases h : l.getLast? = some (Char.ofNat 13)
  · rw [if_pos h]
    have e : l.dropLast ++ [Char.ofNat 13] = l := List.dropLast_append_getLast? _ h
    conv_rhs => rw [← e]
    rw [TrimSpace_append_right]
    intro c hc
    rw [List.mem_singleton.mp hc]
    decide
  · rw [if_neg h]

theorem parse_dropCR (l : GoString) : parse (dropCR l) = parse l := by
  unfold parse
  rw [TrimSpace_dropCR]

/-- Removing the blank and comment lines from the input, when each of them
fits in the buffer of the scanner, removes them from what the scanner
delivers and leaves the final error of the scanner unchanged. -/
theorem scanTokens_filter (readErr : Option GoError) (segs : List GoString)
    (hfit : ∀ seg ∈ segs, (TrimSpace seg = [] ∨ (TrimSpace seg).head? = some '#') →
      byteLen seg < MaxScanTokenSize) :
    scanTokens readErr (segs.filter (fun l =>
        !(decide (TrimSpace l = []) || decide ((TrimSpace l).head? = some '#')))) =
      ⟨(scanTokens readErr segs).lines.filter (fun l =>
        !(decide (TrimSpace l = []) || decide ((TrimSpace l).head? = some '#'))),
        (scanTokens readErr segs).err⟩ := by
  induction segs with
  | nil => rfl
  | cons seg rest ih =>
    have ih2 := ih (fun s hs => hfit s (List.mem_cons_of_mem _ hs))
    by_cases hb : TrimSpace seg = [] ∨ (TrimSpace seg).head? = some '#'
    · have hlen : ¬ MaxScanTokenSize ≤ byteLen seg := by
        have := hfit seg (List.mem_cons_self _ _) hb
        omega
      have hf : (decide (TrimSpace seg = []) || decide ((TrimSpace seg).head? = some '#')) =
          true := by simpa using hb
      have hf2 : (decide (TrimSpace (dropCR seg) = []) ||
          decide ((TrimSpace (dropCR seg)).head? = some '#')) = true := by
        rw [TrimSpace_dropCR]; exact hf
      rw [List.filter_cons_of_neg (by simp [hf]), ih2]
      conv_rhs => rw [scanTokens, if_neg hlen]
      simp only []
      rw [List.filter_cons_of_neg (by simp [hf2])]
    · have hf : (decide (TrimSpace seg = []) || decide ((TrimSpace seg).head? = some '#')) =
          false := by simpa using hb
      have hf2 : (decide (TrimSpace (dropCR seg) = []) ||
          decide ((TrimSpace (dropCR seg)).head? = some '#')) = false := by
        rw [TrimSpace_dropCR]; exact hf
      rw [List.filter_cons_of_pos (by simp [hf])]
      by_cases hlen : MaxScanTokenSize ≤ byteLen seg
      · rw [scanTokens, if_pos hlen, scanTokens, if_pos hlen]
        rfl
      · rw [scanTokens, if_neg hlen, ih2]
        conv_rhs => rw [scanTokens, if_neg hlen]
        simp only []
        rw [List.filter_cons_of_pos (by simp [hf2])]

/-- What the scanner makes of an input: when every line fits, all the lines and
the error of the reader; otherwise the lines before the first one that does not
fit, and `ErrTooLong`. -/
theorem NewScanner_cases (file : File) :
    ((∀ s ∈ rawLines file.content, byteLen s < MaxScanTokenSize) ∧
        NewScanner file = ⟨(rawLines file.content).map dropCR, file.readErr⟩) ∨
      ∃ pre seg post, rawLines file.content = pre ++ seg :: post ∧
        (∀ s ∈ pre, byteLen s < MaxScanTokenSize) ∧ MaxScanTokenSize ≤ byteLen seg ∧
        NewScanner file = ⟨pre.map dropCR, some ErrTooLong⟩ := by
  unfold NewScanner
  rcases first_too_long (rawLines file.content) with h | ⟨pre, seg, post, h1, h2, h3⟩
  · exact Or.inl ⟨h, scanTokens_all_fit _ _ h⟩
  · refine Or.inr ⟨pre, seg, post, h1, h2, h3, ?_⟩
    rw [h1]
    exact scanTokens_too_long _ pre post seg h2 h3

/-! ## The variable loader on whole inputs -/

/-- C5 as stated fails: `read` also fails on inputs none of whose lines makes
`parse` fail.  First input: the lines `A=1`, `B=2` from a reader that reports an
error after delivering them; `read` returns no map and that error.  Second
input: the single line `A=` followed by 70000 letters `x`, which parses without
error as a line; `read` returns no map and `bufio.ErrTooLong`. -/
theorem read_fails_iff_counterexample :
    ((NewScanner ⟨['A', '=', '1', Char.ofNat 10, 'B', '=', '2'],
        some ⟨"read error".toList⟩⟩).lines = ["A=1".toList, "B=2".toList] ∧
      (∀ l ∈ ["A=1".toList, "B=2".toList], (parse l).2.2 = none) ∧
      read (NewScanner ⟨['A', '=', '1', Char.ofNat 10, 'B', '=', '2'],
        some ⟨"read error".toList⟩⟩) = (none, some ⟨"read error".toList⟩)) ∧
    (rawLines ("A=".toList ++ List.replicate 70000 'x') =
        ["A=".toList ++ List.replicate 70000 'x'] ∧
      (parse (dropCR ("A=".toList ++ List.replicate 70000 'x'))).2.2 = none ∧
      read (NewScanner ⟨"A=".toList ++ List.replicate 70000 'x', none⟩) =
        (none, some ErrTooLong)) :=
  ⟨⟨by decide, by decide, by decide⟩,
    ⟨(long_line_facts 70000 (by decide)).2.1, (long_line_facts 70000 (by decide)).2.2.1,
      (long_line_facts 70000 (by decide)).2.2.2.2⟩⟩

/-- C5, amended: with the length of a line counted in bytes up to its newline
(a carriage return before the newline included), `read` fails exactly when
some line makes `parse` fail, or some line is `MaxScanTokenSize` (65536) bytes
long or longer, or the reader reports an error; whenever `read` fails it
returns no map; and when a line shorter than 65536 bytes is malformed, the
lines before it being shorter than 65536 bytes and parsing without error, the
error of `read` is the parse error of that first malformed line, whatever
follows it. -/
theorem read_fails_iff_input (file : File) :
    ((read (NewScanner file)).2 ≠ none ↔
      (∃ seg ∈ rawLines file.content, (parse (dropCR seg)).2.2 ≠ none) ∨
      (∃ seg ∈ rawLines file.content, MaxScanTokenSize ≤ byteLen seg) ∨
      file.readErr ≠ none) ∧
    ((read (NewScanner file)).2 ≠ none → (read (NewScanner file)).1 = none) ∧
    (∀ pre seg post e, rawLines file.content = pre ++ seg :: post →
      (∀ s ∈ pre, byteLen s < MaxScanTokenSize ∧ (parse (dropCR s)).2.2 = none) →
      byteLen seg < MaxScanTokenSize → (parse (dropCR seg)).2.2 = some e →
      read (NewScanner file) = (none, some e)) := by
  refine ⟨?_, ?_, ?_⟩
  · rcases NewScanner_cases file with ⟨hfit, hs⟩ | ⟨pre, seg, post, hraw, _, hlong, hs⟩
    · rw [hs, (read_delivered_fails_iff _).2.2.2 file.readErr]
      have hno : ¬ ∃ seg ∈ rawLines file.content, MaxScanTokenSize ≤ byteLen seg := by
        rintro ⟨seg, hseg, hl⟩
        have := hfit seg hseg
        omega
      constructor
      · rintro (⟨l, hl, hp⟩ | h)
        · obtain ⟨seg, hseg, e⟩ := List.mem_map.mp hl
          exact Or.inl ⟨seg, hseg, by rw [e]; exact hp⟩
        · exact Or.inr (Or.inr h)
      · rintro (⟨seg, hseg, hp⟩ | h | h)
        · exact Or.inl ⟨dropCR seg, List.mem_map.mpr ⟨seg, hseg, rfl⟩, hp⟩
        · exact absurd h hno
        · exact Or.inr h
    · rw [hs, (read_delivered_fails_iff _).2.2.2 (some ErrTooLong)]
      constructor
      · intro _
        exact Or.inr (Or.inl ⟨seg, by rw [hraw]; simp, hlong⟩)
      · intro _
        exact Or.inr (by simp)
  · exact (read_delivered_fails_iff (NewScanner file).lines).2.1 (NewScanner file).err
  · intro pre seg post e hraw hpre hfit he
    have hlen : ¬ MaxScanTokenSize ≤ byteLen seg := by omega
    have hs : NewScanner file =
        ⟨pre.map dropCR ++ dropCR seg :: (scanTokens file.readErr post).lines,
          (scanTokens file.readErr post).err⟩ := by
      unfold NewScanner
      rw [hraw, scanTokens_append_fit _ pre (seg :: post) (fun s hs => (hpre s hs).1),
        scanTokens, if_neg hlen]
    rw [hs]
    refine (read_delivered_fails_iff _).2.2.1 _ (pre.map dropCR) (dropCR seg) _ e rfl ?_ he
    intro l hl
    obtain ⟨s, hs2, e2⟩ := List.mem_map.mp hl
    rw [← e2]
    exact (hpre s hs2).2

/-- Instance of amended C5: the input `A=1`, `NOVALUE`, `B`, `C=3`: the first
malformed line `NOVALUE` decides the error, the entry of `A=1` is not returned
and the later malformed line `B` is never reached. -/
theorem read_fails_iff_input_witness :
    read (NewScanner ⟨['A', '=', '1', Char.ofNat 10, 'N', 'O', 'V', 'A', 'L', 'U', 'E',
        Char.ofNat 10, 'B', Char.ofNat 10, 'C', '=', '3'], none⟩) =
      (none, some ⟨"Invalid line: NOVALUE".toList⟩) :=
  (read_fails_iff_input ⟨['A', '=', '1', Char.ofNat 10, 'N', 'O', 'V', 'A', 'L', 'U', 'E',
      Char.ofNat 10, 'B', Char.ofNat 10, 'C', '=', '3'], none⟩).2.2
    ["A=1".toList] "NOVALUE".toList ["B".toList, "C=3".toList]
    ⟨"Invalid line: NOVALUE".toList⟩ (by decide) (by decide) (by decide) (by decide)

theorem byteLen_cons_hash (l : GoString) : byteLen ('#' :: l) = byteLen l + 1 := by
  have h : byteLen ['#'] = 1 := by decide
  have e : '#' :: l = ['#'] ++ l := rfl
  rw [e, byteLen_append, h]
  omega

/-- What the scanner and `read` do with a comment line `#` followed by `n`
letters `x` that does not fit in the buffer of the scanner, when the line
`A=1` follows it. -/
theorem long_comment_facts (n : Nat) (hn : MaxScanTokenSize ≤ n + 1) :
    (TrimSpace ('#' :: List.replicate n 'x')).head? = some '#' ∧
      rawLines ('#' :: List.replicate n 'x' ++ Char.ofNat 10 :: "A=1".toList) =
        ['#' :: List.replicate n 'x', "A=1".toList] ∧
      ['#' :: List.replicate n 'x', "A=1".toList].filter (fun l =>
        !(decide (TrimSpace l = []) || decide ((TrimSpace l).head? = some '#'))) =
        ["A=1".toList] ∧
      read (NewScanner ⟨'#' :: List.replicate n 'x' ++ Char.ofNat 10 :: "A=1".toList, none⟩) =
        (none, some ErrTooLong) := by
  have hpos : 1 ≤ n := by
    unfold MaxScanTokenSize at hn
    omega
  have hhead : (TrimSpace ('#' :: List.replicate n 'x')).head? = some '#' := by
    obtain ⟨m, hm⟩ : ∃ m, n = m + 1 := ⟨n - 1, by omega⟩
    rw [hm]
    have e : '#' :: List.replicate (m + 1) 'x' = ('#' :: List.replicate m 'x') ++ ['x'] := by
      rw [List.replicate_succ']
      rfl
    rw [TrimSpace_fixed ('#' :: List.replicate (m + 1) 'x') (List.replicate (m + 1) 'x')
      ('#' :: List.replicate m 'x') '#' 'x' rfl (by decide) e (by decide)]
    rfl
  have hnl : Char.ofNat 10 ∉ '#' :: List.replicate n 'x' := by
    intro h
    rcases List.mem_cons.mp h with h1 | h1
    · exact absurd h1 (by decide)
    · exact absurd (List.eq_of_mem_replicate h1) (by decide)
  have hraw : rawLines ('#' :: List.replicate n 'x' ++ Char.ofNat 10 :: "A=1".toList) =
      ['#' :: List.replicate n 'x', "A=1".toList] := by
    rw [rawLines_line _ _ hnl]
    have : rawLines "A=1".toList = ["A=1".toList] := by decide
    rw [this]
  have hfilter : ['#' :: List.replicate n 'x', "A=1".toList].filter (fun l =>
      !(decide (TrimSpace l = []) || decide ((TrimSpace l).head? = some '#'))) =
      ["A=1".toList] := by
    rw [List.filter_cons_of_neg (by simp [hhead])]
    decide
  refine ⟨hhead, hraw, hfilter, ?_⟩
  unfold NewScanner
  simp only []
  have hs := scanTokens_too_long none [] ["A=1".toList] ('#' :: List.replicate n 'x')
    (fun s hs => absurd hs (List.not_mem_nil s))
    (by rw [byteLen_cons_hash, byteLen_replicate_x]; exact hn)
  rw [List.nil_append] at hs
  rw [hraw, hs]
  rfl

/-- C6 as stated fails: in the input made of the comment line `#` followed by
65536 letters `x` and of the line `A=1`, the comment line does not fit in the
buffer of the scanner and `read` returns no map and `bufio.ErrTooLong`, while on
the input without the comment line, `A=1` alone, `read` returns the map with
the single entry `A` to `1`. -/
theorem read_ignores_counterexample :
    (TrimSpace ('#' :: List.replicate 65536 'x')).head? = some '#' ∧
      rawLines ('#' :: List.replicate 65536 'x' ++ Char.ofNat 10 :: "A=1".toList) =
        ['#' :: List.replicate 65536 'x', "A=1".toList] ∧
      ['#' :: List.replicate 65536 'x', "A=1".toList].filter (fun l =>
        !(decide (TrimSpace l = []) || decide ((TrimSpace l).head? = some '#'))) =
        ["A=1".toList] ∧
      read (NewScanner
        ⟨'#' :: List.replicate 65536 'x' ++ Char.ofNat 10 :: "A=1".toList, none⟩) =
        (none, some ErrTooLong) ∧
      rawLines "A=1".toList = ["A=1".toList] ∧
      read (NewScanner ⟨"A=1".toList, none⟩) = (some [("A".toList, "1".toList)], none) :=
  ⟨(long_comment_facts 65536 (by decide)).1, (long_comment_facts 65536 (by decide)).2.1,
    (long_comment_facts 65536 (by decide)).2.2.1, (long_comment_facts 65536 (by decide)).2.2.2,
    by decide, by decide⟩

/-- C6, amended: blank and comment lines shorter than `MaxScanTokenSize` (65536)
bytes, counted up to the newline with a carriage return before it included,
contribute nothing: on an input whose blank and comment lines are all that
short, `read` gives the same result, map or error, as on an input whose lines
are those of the first without the lines whose trimmed form is empty or starts
with `#`; the lines `# comment`, the empty line and `APP_PORT=8080` give
exactly the map with the single entry `APP_PORT` to `8080`. -/
theorem read_ignores_short_blank_and_comment :
    (∀ (content1 content2 : GoString) (re : Option GoError),
      (∀ seg ∈ rawLines content1,
        (TrimSpace seg = [] ∨ (TrimSpace seg).head? = some '#') →
          byteLen seg < MaxScanTokenSize) →
      rawLines content2 = (rawLines content1).filter (fun l =>
        !(decide (TrimSpace l = []) || decide ((TrimSpace l).head? = some '#'))) →
      read (NewScanner ⟨content1, re⟩) = read (NewScanner ⟨content2, re⟩)) ∧
    read (NewScanner ⟨"# comment".toList ++ [Char.ofNat 10, Char.ofNat 10] ++
        "APP_PORT=8080".toList, none⟩) =
      (some [("APP_PORT".toList, "8080".toList)], none) := by
  refine ⟨?_, by decide⟩
  intro content1 content2 re hfit hrem
  unfold NewScanner
  simp only []
  rw [hrem, scanTokens_filter re _ hfit]
  exact read_delivered_filter _ _

/-- Instance of amended C6: the input `# comment`, empty line, `APP_PORT=8080`
and the input `APP_PORT=8080`. -/
theorem read_ignores_short_blank_and_comment_witness :
    read (NewScanner ⟨"# comment".toList ++ [Char.ofNat 10, Char.ofNat 10] ++
        "APP_PORT=8080".toList, none⟩) =
      read (NewScanner ⟨"APP_PORT=8080".toList, none⟩) :=
  read_ignores_short_blank_and_comment.1
    ("# comment".toList ++ [Char.ofNat 10, Char.ofNat 10] ++ "APP_PORT=8080".toList)
    "APP_PORT=8080".toList none (by decide) (by decide)

/-- The line `A=` followed by `n` letters `x` and ended by a carriage return
and a newline: the scanner sees one line that still holds the carriage
return, of `n + 3` bytes, one more than the text before the line ending. -/
theorem crlf_line_facts (n : Nat) (hn : MaxScanTokenSize ≤ n + 3) :
    rawLines ("A=".toList ++ List.replicate n 'x' ++ [Char.ofNat 13, Char.ofNat 10]) =
        [] ++ ("A=".toList ++ List.replicate n 'x' ++ [Char.ofNat 13]) :: [] ∧
      MaxScanTokenSize ≤ byteLen ("A=".toList ++ List.replicate n 'x' ++ [Char.ofNat 13]) ∧
      byteLen ("A=".toList ++ List.replicate n 'x') = n + 2 := by
  have hnl : Char.ofNat 10 ∉ "A=".toList ++ List.replicate n 'x' ++ [Char.ofNat 13] := by
    intro h
    rcases List.mem_append.mp h with h1 | h1
    · rcases List.mem_append.mp h1 with h2 | h2
      · exact absurd h2 (by decide)
      · exact absurd (List.eq_of_mem_replicate h2) (by decide)
    · exact absurd (List.mem_singleton.mp h1) (by decide)
  have e : "A=".toList ++ List.replicate n 'x' ++ [Char.ofNat 13, Char.ofNat 10] =
      ("A=".toList ++ List.replicate n 'x' ++ [Char.ofNat 13]) ++ Char.ofNat 10 :: [] := by
    simp
  have h2 : byteLen "A=".toList = 2 := by decide
  have h1 : byteLen [Char.ofNat 13] = 1 := by decide
  refine ⟨?_, ?_, ?_⟩
  · rw [e, rawLines_line _ _ hnl]
    rfl
  · rw [byteLen_append, byteLen_append, byteLen_replicate_x, h1, h2]
    omega
  · rw [byteLen_append, byteLen_replicate_x, h2]
    omega

/-- Instance of amended C17: the two-line input `A=1`, `B=2` with a
carriage return and newline between them is read to the end; the line `A=`
followed by 65533 letters `x` and ended by a carriage return and a newline has
65536 bytes up to its newline and makes `read` fail with `bufio.ErrTooLong`. -/
theorem read_within_line_limit_witness :
    read (NewScanner ⟨['A', '=', '1', Char.ofNat 13, Char.ofNat 10, 'B', '=', '2'], none⟩) =
        (some [("A".toList, "1".toList), ("B".toList, "2".toList)], none) ∧
      read (NewScanner
        ⟨"A=".toList ++ List.replicate 65533 'x' ++ [Char.ofNat 13, Char.ofNat 10], none⟩) =
        (none, some ErrTooLong) :=
  ⟨(read_within_line_limit ['A', '=', '1', Char.ofNat 13, Char.ofNat 10, 'B', '=', '2']).1
      (by decide) (by decide),
    (read_within_line_limit
        ("A=".toList ++ List.replicate 65533 'x' ++ [Char.ofNat 13, Char.ofNat 10])).2
      none [] [] ("A=".toList ++ List.replicate 65533 'x' ++ [Char.ofNat 13])
      (crlf_line_facts 65533 (by decide)).1 (fun s hs => absurd hs (List.not_mem_nil s))
      (crlf_line_facts 65533 (by decide)).2.1⟩

/-! ## Empty values -/

theorem byteLen_concat_eq (k : GoString) : byteLen (k ++ ['=']) = byteLen k + 1 := by
  have h : byteLen ['='] = 1 := by decide
  rw [byteLen_append, h]

theorem dropCR_key_only (k : GoString) : dropCR (k ++ ['=']) = k ++ ['='] := by
  unfold dropCR
  rw [List.getLast?_concat, if_neg (by decide)]

/-- The scanner over a file that holds the one line `k=`, with or without a
final newline, delivers that line when it fits in the buffer. -/
theorem NewScanner_key_only (k content : GoString) (hnl : Char.ofNat 10 ∉ k)
    (hlen : byteLen k + 1 < MaxScanTokenSize)
    (hcontent : content = k ++ ['='] ∨ content = k ++ ['=', Char.ofNat 10]) :
    NewScanner ⟨content, none⟩ = ⟨[k ++ ['=']], none⟩ := by
  have hnl2 : Char.ofNat 10 ∉ k ++ ['='] := by
    intro h
    rcases List.mem_append.mp h with h1 | h1
    · exact hnl h1
    · exact absurd (List.mem_singleton.mp h1) (by decide)
  have hraw : rawLines content = [k ++ ['=']] := by
    rcases hcontent with h | h
    · rw [h]
      exact rawLines_single _ hnl2 (by simp)
    · have e : k ++ ['=', Char.ofNat 10] = (k ++ ['=']) ++ Char.ofNat 10 :: [] := by simp
      rw [h, e, rawLines_line _ _ hnl2]
      rfl
  unfold NewScanner
  simp only []
  rw [hraw, scanTokens_all_fit none _ (by
    intro s hs
    rw [List.mem_singleton.mp hs, byteLen_concat_eq]
    exact hlen)]
  simp only [List.map_cons, List.map_nil, dropCR_key_only]

/-- What `parse`, the scanner and `read` do with the one line made of a key of
`n` letters `x` followed by `=`, when the line does not fit in the buffer of
the scanner. -/
theorem long_key_facts (n : Nat) (hpos : 0 < n) (hn : MaxScanTokenSize ≤ n + 1) :
    TrimSpace (List.replicate n 'x') = List.replicate n 'x' ∧
      List.replicate n 'x' ≠ [] ∧
      (List.replicate n 'x').head? ≠ some '#' ∧
      '=' ∉ List.replicate n 'x' ∧
      Char.ofNat 10 ∉ List.replicate n 'x' ∧
      parse (List.replicate n 'x' ++ ['=']) = (List.replicate n 'x', [], none) ∧
      read (NewScanner ⟨List.replicate n 'x' ++ ['='], none⟩) = (none, some ErrTooLong) := by
  obtain ⟨m, hm⟩ : ∃ m, n = m + 1 := ⟨n - 1, by omega⟩
  have hk : TrimSpace (List.replicate n 'x') = List.replicate n 'x' := by
    rw [hm]
    exact TrimSpace_fixed (List.replicate (m + 1) 'x') (List.replicate m 'x')
      (List.replicate m 'x') 'x' 'x' (List.replicate_succ 'x' m) (by decide)
      (List.replicate_succ' m 'x') (by decide)
  have hne : List.replicate n 'x' ≠ [] := by
    rw [hm, List.replicate_succ]
    exact List.cons_ne_nil _ _
  have hc : (List.replicate n 'x').head? ≠ some '#' := by
    rw [hm, List.replicate_succ]
    intro h
    exact absurd (Option.some.inj h) (by decide)
  have heq : '=' ∉ List.replicate n 'x' := fun h =>
    absurd (List.eq_of_mem_replicate h) (by decide)
  have hnl : Char.ofNat 10 ∉ List.replicate n 'x' := fun h =>
    absurd (List.eq_of_mem_replicate h) (by decide)
  refine ⟨hk, hne, hc, heq, hnl, parse_key_only _ hk hne hc heq, ?_⟩
  have hnl2 : Char.ofNat 10 ∉ List.replicate n 'x' ++ ['='] := by
    intro h
    rcases List.mem_append.mp h with h1 | h1
    · exact hnl h1
    · exact absurd (List.mem_singleton.mp h1) (by decide)
  have hraw : rawLines (List.replicate n 'x' ++ ['=']) = [List.replicate n 'x' ++ ['=']] :=
    rawLines_single _ hnl2 (by
      intro h
      have := congrArg List.length h
      simp at this)
  unfold NewScanner
  simp only []
  have hs := scanTokens_too_long none [] [] (List.replicate n 'x' ++ ['='])
    (fun s hs => absurd hs (List.not_mem_nil s))
    (by rw [byteLen_concat_eq, byteLen_replicate_x]; exact hn)
  rw [List.nil_append] at hs
  rw [hraw, hs]
  rfl

/-- C20 as stated fails: the key made of 65535 letters `x` is non-empty, has no
leading or trailing white space, no `=`, does not start with `#`, and the line
`k=` parses to that key and the empty value; yet `read` on the input made of
that single line returns no map and `bufio.ErrTooLong`. -/
theorem empty_value_counterexample :
    TrimSpace (List.replicate 65535 'x') = List.replicate 65535 'x' ∧
      List.replicate 65535 'x' ≠ [] ∧
      (List.replicate 65535 'x').head? ≠ some '#' ∧
      '=' ∉ List.replicate 65535 'x' ∧
      Char.ofNat 10 ∉ List.replicate 65535 'x' ∧
      parse (List.replicate 65535 'x' ++ ['=']) = (List.replicate 65535 'x', [], none) ∧
      read (NewScanner ⟨List.replicate 65535 'x' ++ ['='], none⟩) =
        (none, some ErrTooLong) :=
  long_key_facts 65535 (by decide) (by decide)

/-- C20, amended: an empty value is accepted: for a non-empty key `k` without
leading or trailing white space, free of `=` and of newlines, not starting
with `#` and shorter than 65535 bytes (so that the line `k=` is shorter than
`MaxScanTokenSize`), `read` on the input made of the single line `k=`, with or
without a final newline, returns the map with the one entry `k` to the empty
string, without error; and `Feed` on a file with that content returns the map
with the one entry `standardize k` to the environment value of `k` when that
is non-empty, and to the empty string when `k` is unset or set to the empty
string. -/
theorem empty_value_accepted_within_limit (k : GoString) (hk : TrimSpace k = k)
    (hne : k ≠ []) (hc : k.head? ≠ some '#') (heq : '=' ∉ k) (hnl : Char.ofNat 10 ∉ k)
    (hlen : byteLen k + 1 < MaxScanTokenSize) :
    (∀ content : GoString, content = k ++ ['='] ∨ content = k ++ ['=', Char.ofNat 10] →
      read (NewScanner ⟨content, none⟩) = (some [(k, [])], none)) ∧
    (∀ (fs : FileSystem) (env : Environ) (tbl : Char → Char)
      (range : VariableMap → List (GoString × GoString)) (path p content : GoString),
      (∀ m, (range m).Perm m) → fs.Abs path = .ok p →
      fs.Open (fs.Clean p) = .ok ⟨content, none⟩ →
      content = k ++ ['='] ∨ content = k ++ ['=', Char.ofNat 10] →
      (∀ e, env k = some e → e ≠ [] →
        Feed fs env tbl range path = (some [(standardize tbl k, e)], none)) ∧
      (env k = none ∨ env k = some [] →
        Feed fs env tbl range path = (some [(standardize tbl k, [])], none))) := by
  have hread : ∀ content : GoString,
      content = k ++ ['='] ∨ content = k ++ ['=', Char.ofNat 10] →
      read (NewScanner ⟨content, none⟩) = (some [(k, [])], none) := by
    intro content hcontent
    rw [NewScanner_key_only k content hnl hlen hcontent]
    exact read_key_only k hk hne hc heq
  refine ⟨hread, ?_⟩
  intro fs env tbl range path p content hrange ha ho hcontent
  have hload : load fs path = (some [(k, [])], none) :=
    load_of_scanner fs path p ⟨content, none⟩ ha ho [(k, [])] (hread content hcontent)
  have e := Feed_of_load_ok fs env tbl range path (some [(k, [])]) hload
  simp only [Option.getD_some] at e
  have hr : range [(k, [])] = [(k, [])] := List.perm_singleton.mp (hrange [(k, [])])
  rw [hr] at e
  have hf : feedLoop env tbl [] [(k, [])] = [(standardize tbl k, get env k [])] := rfl
  rw [hf] at e
  constructor
  · intro v hv hvne
    rw [e]
    have : get env k [] = v := by
      unfold get Getenv
      simp only [hv, Option.getD_some]
      rw [if_pos hvne]
    rw [this]
  · intro h
    rw [e]
    have : get env k [] = [] := by
      unfold get Getenv
      rcases h with h | h
      · simp [h]
      · simp [h]
    rw [this]

/-- Instance of amended C20: the file `DB_URL=` with `DB_URL` bound to `pg` in
the environment, and with `DB_URL` unset. -/
theorem empty_value_accepted_within_limit_witness :
    read (NewScanner ⟨"DB_URL".toList ++ ['='], none⟩) = (some [("DB_URL".toList, [])], none) ∧
    Feed ⟨fun p => .ok p, fun p => p, fun _ => .ok ⟨"DB_URL".toList ++ ['='], none⟩⟩
        (fun k => if k = "DB_URL".toList then some "pg".toList else none) id id [] =
      (some [(standardize id "DB_URL".toList, "pg".toList)], none) ∧
    Feed ⟨fun p => .ok p, fun p => p, fun _ => .ok ⟨"DB_URL".toList ++ ['='], none⟩⟩
        (fun _ => none) id id [] =
      (some [(standardize id "DB_URL".toList, [])], none) :=
  ⟨(empty_value_accepted_within_limit "DB_URL".toList (by decide) (by decide) (by decide)
      (by decide) (by decide) (by decide)).1 _ (Or.inl rfl),
    ((empty_value_accepted_within_limit "DB_URL".toList (by decide) (by decide) (by decide)
      (by decide) (by decide) (by decide)).2
      ⟨fun p => .ok p, fun p => p, fun _ => .ok ⟨"DB_URL".toList ++ ['='], none⟩⟩
      (fun k => if k = "DB_URL".toList then some "pg".toList else none) id id [] []
      ("DB_URL".toList ++ ['=']) (fun _ => List.Perm.refl _) rfl rfl (Or.inl rfl)).1
      "pg".toList (by decide) (by decide),
    ((empty_value_accepted_within_limit "DB_URL".toList (by decide) (by decide) (by decide)
      (by decide) (by decide) (by decide)).2
      ⟨fun p => .ok p, fun p => p, fun _ => .ok ⟨"DB_URL".toList ++ ['='], none⟩⟩
      (fun _ => none) id id [] [] ("DB_URL".toList ++ ['=']) (fun _ => List.Perm.refl _)
      rfl rfl (Or.inl rfl)).2 (Or.inl rfl)⟩

end Feeder
